import Mathlib

/-!
Verification of the document-matching and nested-path mutation engine of a
JSON-file document store (`src/lib.rs`), together with its collection-store
CRUD layer, via a shallow embedding.

Modelling conventions, all derived from the source:

* `Value` mirrors `serde_json::Value` as a tagged variant type.  JSON numbers
  are abstracted to `Int` (no claim depends on numeric representation), and
  objects are association lists of entries.  `serde_json`'s object maps are
  B-tree maps whose iteration order is strictly increasing in the key, so an
  object produced by the library always has strictly sorted, duplicate-free
  keys; theorems that depend on this invariant take it as an explicit
  hypothesis on the entry list.
* Rust functions that can panic (`unwrap`, `expect`, indexing `obj[k]` on a
  non-object) are embedded as `Option`-valued functions where `none` models
  the panic; infallible functions are embedded as total functions.
* Serialization between the record type `T` and `serde_json::Value` is the
  identity (the spec scopes claims to records whose fields serialize
  losslessly), and the `Identifiable` contract is an explicit function
  argument `getId : Value → String`.
* The file system is external collaborator I/O: a collection directory is a
  list of `(identifier, document)` pairs, writing a file is an
  insert-or-replace, and reading is a lookup.
-/

/-- Mirror of `serde_json::Value`: the tagged JSON variant type the engine
operates on (`src/lib.rs` uses `serde_json::Value` throughout). -/
inductive Value where
  | null
  | bool (b : Bool)
  | num (n : Int)
  | str (s : String)
  | arr (elems : List Value)
  | obj (entries : List (String × Value))

mutual
/-- Mirror of `serde_json::Value`'s `PartialEq` (the `==` used by
`matches_condition` and by `pull`'s element filter).  On objects produced by
`serde_json` the entry lists are strictly sorted by key, so entry-list
equality coincides with the map equality Rust uses. -/
def beqV : Value → Value → Bool
  | Value.null, Value.null => true
  | Value.bool a, Value.bool b => a == b
  | Value.num a, Value.num b => a == b
  | Value.str a, Value.str b => a == b
  | Value.arr xs, Value.arr ys => beqL xs ys
  | Value.obj xs, Value.obj ys => beqE xs ys
  | _, _ => false
/-- Element-wise equality of JSON arrays. -/
def beqL : List Value → List Value → Bool
  | [], [] => true
  | x :: xs, y :: ys => beqV x y && beqL xs ys
  | _, _ => false
/-- Entry-wise equality of JSON object entry lists. -/
def beqE : List (String × Value) → List (String × Value) → Bool
  | [], [] => true
  | (k, x) :: xs, (l, y) :: ys => k == l && beqV x y && beqE xs ys
  | _, _ => false
end

/-- Mirror of `Value::is_object`. -/
def Value.isObj : Value → Bool
  | Value.obj _ => true
  | _ => false

/-- Mirror of `Value::is_array`. -/
def Value.isArr : Value → Bool
  | Value.arr _ => true
  | _ => false

/-- Splitting a character list at `'.'` separators, accumulating the current
segment in reverse; mirrors Rust's `str::split('.')`, which yields at least
one (possibly empty) segment and empty segments between adjacent dots. -/
def splitDotAux : List Char → List Char → List String
  | [], acc => [String.mk acc.reverse]
  | c :: cs, acc =>
    if c = '.' then String.mk acc.reverse :: splitDotAux cs []
    else splitDotAux cs (c :: acc)

/-- Mirror of `key.split('.').collect::<Vec<&str>>()` in `matches_condition`,
`update_nested_object`, `push`, `pull` and `update_array`. -/
def splitDot (s : String) : List String := splitDotAux s.data []

/-- Lookup of a key in an object's entry list; mirrors `Map::get`.  On the
sorted duplicate-free entry lists `serde_json` produces, first-match lookup
is exactly map lookup. -/
def objGet : List (String × Value) → String → Option Value
  | [], _ => none
  | (k, v) :: rest, key => if k = key then some v else objGet rest key

/-- Insert-or-replace of a key in an object's entry list; mirrors
`Map::insert` / `obj[key] = value` on an existing object (replacing in place
when the key is present, adding an entry otherwise). -/
def objInsert : List (String × Value) → String → Value → List (String × Value)
  | [], key, v => [(key, v)]
  | (k, w) :: rest, key, v =>
    if k = key then (k, v) :: rest else (k, w) :: objInsert rest key v

/-- Mirror of `Value::get(&str)`: `Some` only on objects containing the key
(string indexing into arrays and scalars yields `None`). -/
def valueGet : Value → String → Option Value
  | Value.obj es, k => objGet es k
  | _, _ => none

/-- Mirror of `get_nested_property` (src/lib.rs:145-148): fold over the key
segments, substituting the `Null` sentinel whenever `Value::get` fails.
Total, as the source is: `unwrap_or(&Value::Null)` never panics. -/
def get_nested_property (doc : Value) (keys : List String) : Value :=
  keys.foldl (fun acc k => (valueGet acc k).getD Value.null) doc

/-- Strict variant of the same traversal: `some` exactly when every segment
resolves (every intermediate value is an object containing the segment key).
Used to state when a dotted path "resolves to a value present in the
document", which `get_nested_property`'s sentinel conflates with a stored
`Null`. -/
def getNestedOpt (doc : Value) (keys : List String) : Option Value :=
  keys.foldlM (fun acc k => valueGet acc k) doc

/-- Mirror of `set_nested_property` (src/lib.rs:157-169).  `none` models the
panics of the source: `obj[key] = v` panics unless the target is an object
or `Null` (serde treats `Null` as an empty object there), and
`as_object_mut().unwrap()` panics on any non-object, `Null` included.  On
the recursive step the source takes `entry(key).or_insert(empty object)`,
i.e. the existing entry of whatever shape, or a fresh empty object. -/
def set_nested_property : Value → List String → Value → Option Value
  | d, [k], v =>
    match d with
    | Value.obj es => some (Value.obj (objInsert es k v))
    | Value.null => some (Value.obj [(k, v)])
    | _ => none
  | d, k :: k' :: rest, v =>
    match d with
    | Value.obj es =>
      (set_nested_property ((objGet es k).getD (Value.obj [])) (k' :: rest) v).map
        (fun nv => Value.obj (objInsert es k nv))
    | _ => none
  | _, [], _ => none

/-- Mirror of `update_nested_object` (src/lib.rs:177-182): iterate the
source's top-level entries in order (`serde_json` iterates its B-tree map in
strictly increasing key order, so the entry-list order of a faithfully
modelled patch is that order), splitting each key on dots and assigning.
`source.as_object().unwrap()` panics on a non-object source. -/
def update_nested_object (target : Value) (source : Value) : Option Value :=
  match source with
  | Value.obj es =>
    es.foldlM (fun t kv => set_nested_property t (splitDot kv.1) kv.2) target
  | _ => none

mutual
/-- Mirror of `matches_condition` (src/lib.rs:120-137).  A non-object
condition (the `is_null` disjunct of the source is subsumed: `Null` is not
an object) compares for equality; an object condition rejects non-object
items and otherwise requires every entry to match, resolving each dotted
key against the item and recursing when both sides are objects. -/
def matches_condition (item : Value) : Value → Bool
  | Value.obj cs => item.isObj && matchesEntries item cs
  | cond => beqV item cond
/-- The `.all` loop body of `matches_condition` over the condition's
entries. -/
def matchesEntries (item : Value) : List (String × Value) → Bool
  | [] => true
  | (k, v) :: rest =>
    (let nv := get_nested_property item (splitDot k)
     if nv.isObj && v.isObj then matches_condition nv v else beqV nv v)
    && matchesEntries item rest
end

/-- A collection directory: one `(identifier, document)` pair per JSON file.
File writes replace the file of the same name, so identifiers act as keys. -/
abbrev Db : Type := List (String × Value)

/-- Reading the file `<id>.json`: lookup by identifier. -/
def dbFind : Db → String → Option Value
  | [], _ => none
  | (i, v) :: rest, id => if i = id then some v else dbFind rest id

/-- Writing the file `<id>.json`: replace the record if present, add it
otherwise. -/
def dbInsert : Db → String → Value → Db
  | [], id, v => [(id, v)]
  | (i, w) :: rest, id, v =>
    if i = id then (i, v) :: rest else (i, w) :: dbInsert rest id v

/-- Mirror of `create` (src/lib.rs:207-210): unconditional overwrite of the
record file. -/
def create (db : Db) (id : String) (data : Value) : Db :=
  dbInsert db id data

/-- Mirror of `create_model` (src/lib.rs:193-199): extract the identifier via
the `Identifiable` contract (`getId`), panic (`none`) when it is empty,
delegate to `create` otherwise. -/
def create_model (getId : Value → String) (db : Db) (data : Value) : Option Db :=
  if getId data = "" then none else some (create db (getId data) data)

/-- Mirror of `find_by_id` (src/lib.rs:221-224): read and deserialize the
record file; absent file yields `none`. -/
def find_by_id (db : Db) (id : String) : Option Value :=
  dbFind db id

/-- Mirror of `update_by_id` (src/lib.rs:232-242): silently skip when the
record does not exist; otherwise merge the patch into the record's JSON via
`update_nested_object` and write the result back.  `none` models the panics
inside the merge. -/
def update_by_id (db : Db) (id : String) (patch : Value) : Option Db :=
  match dbFind db id with
  | none => some db
  | some existing =>
    (update_nested_object existing patch).map (fun merged => dbInsert db id merged)

/-- Mirror of `find` (src/lib.rs:284-289): every stored record whose JSON
matches the condition, in directory iteration order. -/
def find (db : Db) (cond : Value) : List Value :=
  (db.map Prod.snd).filter (fun v => matches_condition v cond)

/-- Mirror of `update_many` (src/lib.rs:325-331): apply `update_by_id` with
the same patch to every matched record in turn; a panic partway (modelled by
`none`) aborts the remaining iterations. -/
def update_many (getId : Value → String) (db : Db) (cond : Value) (patch : Value) :
    Option Db :=
  (find db cond).foldlM (fun cur item => update_by_id cur (getId item) patch) db

/-- Mirror of `push` (src/lib.rs:353-370): for each matched record, re-read
it, resolve the array path; when it holds an array, append the element, set
the new array back into the record's JSON, and write the whole updated
record through `update_by_id`; otherwise skip the record silently. -/
def pushBody (arrayPath : String) (elem : Value) (cur : Db) (id : String)
    (data : Value) : Option Db :=
  match get_nested_property data (splitDot arrayPath) with
  | Value.arr xs =>
    (set_nested_property data (splitDot arrayPath)
        (Value.arr (xs ++ [elem]))).bind
      (fun updated => update_by_id cur id updated)
  | _ => some cur

def pushStep (getId : Value → String) (arrayPath : String) (elem : Value)
    (cur : Db) (item : Value) : Option Db :=
  match dbFind cur (getId item) with
  | none => some cur
  | some data => pushBody arrayPath elem cur (getId item) data

def push (getId : Value → String) (db : Db) (cond : Value) (arrayPath : String)
    (elem : Value) : Option Db :=
  (find db cond).foldlM (pushStep getId arrayPath elem) db

/-- Mirror of `pull` (src/lib.rs:379-401): like `push`, but replace the
resolved array by the subsequence of its elements that do NOT match the pull
condition. -/
def pullBody (arrayPath : String) (pullCond : Value) (cur : Db) (id : String)
    (data : Value) : Option Db :=
  match get_nested_property data (splitDot arrayPath) with
  | Value.arr xs =>
    (set_nested_property data (splitDot arrayPath)
        (Value.arr (xs.filter (fun e => ! matches_condition e pullCond)))).bind
      (fun updated => update_by_id cur id updated)
  | _ => some cur

def pullStep (getId : Value → String) (arrayPath : String) (pullCond : Value)
    (cur : Db) (item : Value) : Option Db :=
  match dbFind cur (getId item) with
  | none => some cur
  | some data => pullBody arrayPath pullCond cur (getId item) data

def pull (getId : Value → String) (db : Db) (cond : Value) (arrayPath : String)
    (pullCond : Value) : Option Db :=
  (find db cond).foldlM (pullStep getId arrayPath pullCond) db

/-- A concrete `Identifiable` implementation used by witnesses: the record's
top-level `id` field when it is a string, the empty string otherwise. -/
def getIdField (d : Value) : String :=
  match getNestedOpt d ["id"] with
  | some (Value.str s) => s
  | _ => ""

/-- Boolean test that `p` is an initial segment of `q` (paths compared
segment by segment). -/
def isSeg : List String → List String → Bool
  | [], _ => true
  | _ :: _, [] => false
  | a :: as, b :: bs => a == b && isSeg as bs

/-- Top-level keys of a patch object (each is a dotted path). -/
def topKeys : Value → List String
  | Value.obj es => es.map Prod.fst
  | _ => []

/-- The merge loop of `update_nested_object` viewed as a sequence of
path-assignments: fold `set_nested_property` over `(split path, value)`
pairs. -/
def runOps (d : Value) (ops : List (List String × Value)) : Option Value :=
  ops.foldlM (fun t op => set_nested_property t op.1 op.2) d

/-- `properPre q p`: `q` is a strict initial segment of `p`. -/
def properPre (q p : List String) : Bool := isSeg q p && !(q == p)

/-- Order condition satisfied by the key-sorted iteration of a `serde_json`
object map: no later key's path is a strict initial segment of an earlier
key's path (a strict path-prefix is a strict string-prefix, hence sorts
first). -/
def opsOK : List (List String × Value) → Bool
  | [] => true
  | (p, _) :: rest => rest.all (fun op => !properPre op.1 p) && opsOK rest

/-- Effect of one assignment on the subvalue sitting at region `p`: an
assignment at `p` itself replaces it, an assignment strictly below updates
within, anything else leaves it alone. -/
def regionStep (p : List String) (r : Value) (op : List String × Value) :
    Option Value :=
  if isSeg p op.1 then
    (if op.1.drop p.length = [] then some op.2
     else set_nested_property r (op.1.drop p.length) op.2)
  else some r

/-- Fold of `regionStep` over an assignment sequence. -/
def regionRun (p : List String) (r : Value)
    (ops : List (List String × Value)) : Option Value :=
  ops.foldlM (regionStep p) r

/-- Order invariant of a real patch: `serde_json` object maps iterate keys in
strictly increasing order, and a strict path-prefix of a key is a strict
string-prefix of it, hence iterated earlier; so no later key path is a
strict initial segment of an earlier one.  Non-object patches satisfy it
vacuously (they panic the merge anyway). -/
def patchOrdered (patch : Value) : Bool :=
  match patch with
  | Value.obj es => opsOK (es.map (fun kv => (splitDot kv.1, kv.2)))
  | _ => true

/-- A key without any `'.'`: splitting it yields the key itself as the only
segment. -/
def dotFree (s : String) : Bool := s.data.all (fun c => c ≠ '.')

/-- A record whose top-level field names are duplicate-free and contain no
dots, so that the write-back merge reproduces it verbatim. -/
def flatObj : Value → Bool
  | Value.obj es =>
    (es.map Prod.fst).all (fun k => dotFree k) &&
      decide ((es.map Prod.fst).Nodup)
  | _ => false

/-- Flat witness record `{"id": "1", "xs": [1, 2]}`. -/
def wdoc : Value :=
  Value.obj [("id", Value.str "1"),
    ("xs", Value.arr [Value.num 1, Value.num 2])]

/-- The witness record after pushing `3` onto `xs`. -/
def wdocPushed : Value :=
  Value.obj [("id", Value.str "1"),
    ("xs", Value.arr [Value.num 1, Value.num 2, Value.num 3])]

/-- Flat witness record `{"id": "1", "xs": [{"t": 1}, {"t": 2}]}`. -/
def wdoc2 : Value :=
  Value.obj [("id", Value.str "1"),
    ("xs", Value.arr [Value.obj [("t", Value.num 1)],
      Value.obj [("t", Value.num 2)]])]

/-- The second witness record after pulling elements matching `{"t": 1}`. -/
def wdoc2Pulled : Value :=
  Value.obj [("id", Value.str "1"),
    ("xs", Value.arr [Value.obj [("t", Value.num 2)]])]

/-- Record whose literal top-level field name `"x.y"` shadows the nested
path `x.y`: `{"id": "1", "x": {"y": [0]}, "x.y": 5}` (entries in the sorted
order a `serde_json` map iterates). -/
def cdoc : Value :=
  Value.obj [("id", Value.str "1"),
    ("x", Value.obj [("y", Value.arr [Value.num 0])]),
    ("x.y", Value.num 5)]

/-- The shadowed record as the write-back merge stores it: the literal
`"x.y"` entry was re-split into the path `x.y` and overwrote the array. -/
def cdocFinal : Value :=
  Value.obj [("id", Value.str "1"),
    ("x", Value.obj [("y", Value.num 5)]),
    ("x.y", Value.num 5)]

theorem get_nested_nil (d : Value) : get_nested_property d [] = d := rfl

theorem get_nested_cons (d : Value) (k : String) (r : List String) :
    get_nested_property d (k :: r) =
      get_nested_property ((valueGet d k).getD Value.null) r := rfl

theorem getNestedOpt_nil (d : Value) : getNestedOpt d [] = some d := rfl

theorem getNestedOpt_cons (d : Value) (k : String) (r : List String) :
    getNestedOpt d (k :: r) = (valueGet d k).bind (fun w => getNestedOpt w r) := by
  cases h : valueGet d k <;> simp [getNestedOpt, List.foldlM, h]

theorem valueGet_null (k : String) : valueGet Value.null k = none := rfl

theorem get_nested_null : ∀ keys : List String,
    get_nested_property Value.null keys = Value.null
  | [] => rfl
  | k :: r => by rw [get_nested_cons, valueGet_null]; exact get_nested_null r

/-- The sentinel traversal is the strict traversal with `Null` substituted for
failure: once a segment fails to resolve, every later step stays at `Null`. -/
theorem get_nested_eq_strict : ∀ (keys : List String) (d : Value),
    get_nested_property d keys = (getNestedOpt d keys).getD Value.null
  | [], _ => rfl
  | k :: r, d => by
    rw [get_nested_cons, getNestedOpt_cons]
    cases h : valueGet d k with
    | none => simp [get_nested_null]
    | some w => simp [get_nested_eq_strict r w]

/-- C6: `get_nested_property` is total by construction (its embedding needs
no `Option`: the source's only fallible step is guarded by `unwrap_or`), and
whenever some traversed segment is missing or meets a non-object value — that
is, the strict traversal fails — it returns the `Null` sentinel. -/
theorem c6_get_nested_total_sentinel (doc : Value) (keys : List String)
    (h : getNestedOpt doc keys = none) :
    get_nested_property doc keys = Value.null := by
  rw [get_nested_eq_strict, h]; rfl

theorem c6_get_nested_total_sentinel_witness :
    getNestedOpt (Value.arr []) ["a"] = none ∧
      get_nested_property (Value.arr []) ["a"] = Value.null :=
  ⟨rfl, c6_get_nested_total_sentinel (Value.arr []) ["a"] rfl⟩

theorem beqV_null_left : ∀ v : Value, v ≠ Value.null → beqV Value.null v = false := by
  intro v hv
  cases v <;> simp_all [beqV]

theorem matchesEntries_false_of_mem (item : Value) (k : String) (v : Value) :
    ∀ cs : List (String × Value), (k, v) ∈ cs →
      get_nested_property item (splitDot k) = Value.null → v ≠ Value.null →
      matchesEntries item cs = false := by
  intro cs
  induction cs with
  | nil => intro h; cases h
  | cons hd tl ih =>
    intro hmem hnv hv
    rcases List.mem_cons.mp hmem with heq | htl
    · cases hd with
      | mk k0 v0 =>
        cases heq
        simp [matchesEntries, hnv, Value.isObj, beqV_null_left v hv]
    · cases hd with
      | mk k0 v0 =>
        simp [matchesEntries, ih htl hnv hv]

/-- C1 (amended): a condition key whose dotted path does not resolve to any
value present in the document forces a mismatch whenever the value the
condition associates with that key is not `Null`; an associated `Null`
compares equal to the sentinel and does not force one. -/
theorem c1_matches_absent_key (doc : Value) (cs : List (String × Value))
    (k : String) (v : Value) (hmem : (k, v) ∈ cs)
    (hres : getNestedOpt doc (splitDot k) = none) (hv : v ≠ Value.null) :
    matches_condition doc (Value.obj cs) = false := by
  have hnv : get_nested_property doc (splitDot k) = Value.null := by
    rw [get_nested_eq_strict, hres]; rfl
  rw [matches_condition]
  rw [matchesEntries_false_of_mem doc k v cs hmem hnv hv]
  simp

theorem c1_matches_absent_key_witness :
    matches_condition (Value.obj [("a", Value.num 1)])
      (Value.obj [("b", Value.num 2)]) = false :=
  c1_matches_absent_key (Value.obj [("a", Value.num 1)]) [("b", Value.num 2)]
    "b" (Value.num 2) (by simp) rfl (by simp)

/-- C1 (counterexample): the key `"b"` does not resolve in `{"a": 1}`, yet the
condition `{"b": null}` matches it, because the unresolved sentinel `Null`
compares equal to the condition's `Null`; so a condition with an absent key is
not false regardless of the associated value. -/
theorem c1_counterexample :
    getNestedOpt (Value.obj [("a", Value.num 1)]) (splitDot "b") = none ∧
      matches_condition (Value.obj [("a", Value.num 1)])
        (Value.obj [("b", Value.null)]) = true :=
  ⟨rfl, by decide⟩

theorem dbFind_insert_self (id : String) (v : Value) :
    ∀ db : Db, dbFind (dbInsert db id v) id = some v := by
  intro db
  induction db with
  | nil => simp [dbInsert, dbFind]
  | cons hd tl ih =>
    cases hd with
    | mk i w =>
      by_cases h : i = id <;> simp [dbInsert, dbFind, h, ih]

theorem dbFind_insert_ne (id id' : String) (v : Value) (h : id' ≠ id) :
    ∀ db : Db, dbFind (dbInsert db id v) id' = dbFind db id' := by
  intro db
  have h' : id ≠ id' := Ne.symm h
  induction db with
  | nil => simp [dbInsert, dbFind, h']
  | cons hd tl ih =>
    cases hd with
    | mk i w =>
      by_cases hi : i = id
      · subst hi; simp [dbInsert, dbFind, h', ih]
      · simp [dbInsert, dbFind, hi, ih]

/-- C4: round-trip at the store layer: creating a record under a non-empty
identifier and reading it back by that identifier yields the same document
(serialization being lossless is the identity embedding of records). -/
theorem c4_create_find_round_trip (db : Db) (id : String) (r : Value)
    (hid : id ≠ "") : find_by_id (create db id r) id = some r := by
  unfold find_by_id create
  exact dbFind_insert_self id r db

theorem c4_create_find_round_trip_witness :
    find_by_id (create [] "1" (Value.obj [("id", Value.str "1")])) "1" =
      some (Value.obj [("id", Value.str "1")]) :=
  c4_create_find_round_trip [] "1" (Value.obj [("id", Value.str "1")]) (by simp)

/-- C9: `create_model` aborts fatally exactly when the identifier the
`Identifiable` contract extracts from the record is empty, and otherwise
creates the record under that identifier. -/
theorem c9_create_model_empty_id (getId : Value → String) (db : Db) (data : Value) :
    (create_model getId db data = none ↔ getId data = "") ∧
      (getId data ≠ "" →
        create_model getId db data = some (create db (getId data) data)) := by
  constructor
  · constructor
    · intro h
      by_contra hne
      simp [create_model, hne] at h
    · intro h; simp [create_model, h]
  · intro h; simp [create_model, h]

theorem c9_create_model_empty_id_witness :
    create_model getIdField [] (Value.obj [("id", Value.str "7")]) =
        some (create [] "7" (Value.obj [("id", Value.str "7")])) ∧
      create_model getIdField [] (Value.obj [("id", Value.num 3)]) = none := by
  constructor
  · exact (c9_create_model_empty_id getIdField [] (Value.obj [("id", Value.str "7")])).2
      (by decide)
  · exact (c9_create_model_empty_id getIdField [] (Value.obj [("id", Value.num 3)])).1.mpr
      (by decide)

theorem objGet_insert_self (k : String) (v : Value) :
    ∀ es : List (String × Value), objGet (objInsert es k v) k = some v := by
  intro es
  induction es with
  | nil => simp [objInsert, objGet]
  | cons hd tl ih =>
    cases hd with
    | mk k0 w =>
      by_cases h : k0 = k <;> simp [objInsert, objGet, h, ih]

theorem objGet_insert_ne (k k' : String) (v : Value) (h : k' ≠ k) :
    ∀ es : List (String × Value), objGet (objInsert es k v) k' = objGet es k' := by
  intro es
  have h' : k ≠ k' := Ne.symm h
  induction es with
  | nil => simp [objInsert, objGet, h']
  | cons hd tl ih =>
    cases hd with
    | mk k0 w =>
      by_cases h0 : k0 = k
      · subst h0; simp [objInsert, objGet, h', ih]
      · simp [objInsert, objGet, h0, ih]

/-- C2 (amended): whenever `set_nested_property` completes without panicking,
reading the same path back with `get_nested_property` yields the written
value. -/
theorem c2_set_get : ∀ (p : List String) (d v d' : Value),
    set_nested_property d p v = some d' → get_nested_property d' p = v
  | [], d, v, d', h => by simp [set_nested_property] at h
  | [k], d, v, d', h => by
    cases d <;> simp [set_nested_property] at h <;>
      simp [← h, get_nested_cons, valueGet, objGet, objGet_insert_self,
        get_nested_nil]
  | k :: k' :: rest, d, v, d', h => by
    cases d <;> simp [set_nested_property] at h
    case obj es =>
      obtain ⟨nv, hnv, hd'⟩ := h
      rw [← hd', get_nested_cons]
      simp [valueGet, objGet_insert_self]
      exact c2_set_get (k' :: rest) _ v nv hnv

theorem c2_set_get_witness :
    set_nested_property (Value.obj []) ["a", "b"] (Value.num 3) =
        some (Value.obj [("a", Value.obj [("b", Value.num 3)])]) ∧
      get_nested_property (Value.obj [("a", Value.obj [("b", Value.num 3)])])
        ["a", "b"] = Value.num 3 :=
  ⟨rfl, c2_set_get ["a", "b"] (Value.obj []) (Value.num 3) _ rfl⟩

/-- C2 (counterexample): on the document `1` (not an object) and the
single-segment path `["a"]`, `set_nested_property` panics (`obj[key] = v` on
a number), so there is no updated document on which `get_nested_property`
could return the written value. -/
theorem c2_counterexample :
    ¬ ∃ d' : Value,
        set_nested_property (Value.num 1) ["a"] Value.null = some d' ∧
          get_nested_property d' ["a"] = Value.null := by
  rintro ⟨d', h, -⟩
  simp [set_nested_property] at h

theorem update_nested_object_of_not_obj (w patch : Value)
    (hp : patch.isObj = false) : update_nested_object w patch = none := by
  cases patch <;> simp_all [update_nested_object, Value.isObj]

theorem dbFind_exists_of_mem : ∀ (db : Db) (i : String) (d : Value),
    (i, d) ∈ db → ∃ w, dbFind db i = some w := by
  intro db i d
  induction db with
  | nil => intro h; cases h
  | cons hd tl ih =>
    intro hmem
    cases hd with
    | mk j w =>
      rcases List.mem_cons.mp hmem with heq | htl
      · cases heq; exact ⟨d, by simp [dbFind]⟩
      · by_cases hj : j = i
        · exact ⟨w, by simp [dbFind, hj]⟩
        · obtain ⟨w', hw'⟩ := ih htl
          exact ⟨w', by simp [dbFind, hj, hw']⟩

theorem find_mem_db (db : Db) (cond : Value) (item : Value)
    (h : item ∈ find db cond) : ∃ i, (i, item) ∈ db := by
  unfold find at h
  obtain ⟨hmem, -⟩ := List.mem_filter.mp h
  obtain ⟨⟨i, d⟩, hdb, hsnd⟩ := List.mem_map.mp hmem
  simp at hsnd
  subst hsnd
  exact ⟨i, hdb⟩

/-- C10: a patch that is not a JSON object makes the merge panic
(`source.as_object().unwrap()`), so `update_by_id` on an existing record
aborts instead of applying or skipping the patch, and `update_many` aborts
the same way as soon as it has a first matched record (given the
`Identifiable` contract that a stored record's extracted id is its key). -/
theorem c10_non_object_patch_panics (getId : Value → String) (db : Db)
    (patch : Value) (hp : patch.isObj = false) :
    (∀ id doc, dbFind db id = some doc → update_by_id db id patch = none) ∧
      (∀ cond item rest', (∀ p ∈ db, getId p.2 = p.1) →
        find db cond = item :: rest' →
        update_many getId db cond patch = none) := by
  have hup : ∀ id doc, dbFind db id = some doc → update_by_id db id patch = none := by
    intro id doc hfind
    simp [update_by_id, hfind, update_nested_object_of_not_obj doc patch hp]
  refine ⟨hup, ?_⟩
  intro cond item rest' hcontract hfind
  have hmem : item ∈ find db cond := by rw [hfind]; exact List.mem_cons_self _ _
  obtain ⟨i, hidb⟩ := find_mem_db db cond item hmem
  have hid : getId item = i := hcontract (i, item) hidb
  obtain ⟨w, hw⟩ := dbFind_exists_of_mem db i item hidb
  unfold update_many
  rw [hfind]
  simp [List.foldlM_cons, hid, hup i w hw]

theorem c10_non_object_patch_panics_witness :
    update_by_id [("1", Value.obj [("id", Value.str "1")])] "1" (Value.num 5) = none ∧
      update_many getIdField [("1", Value.obj [("id", Value.str "1")])]
        (Value.obj []) (Value.num 5) = none := by
  constructor
  · exact (c10_non_object_patch_panics getIdField
      [("1", Value.obj [("id", Value.str "1")])] (Value.num 5) rfl).1
      "1" (Value.obj [("id", Value.str "1")]) rfl
  · exact (c10_non_object_patch_panics getIdField
      [("1", Value.obj [("id", Value.str "1")])] (Value.num 5) rfl).2
      (Value.obj []) (Value.obj [("id", Value.str "1")]) []
      (by intro p hp; rw [List.mem_singleton] at hp; subst hp; rfl) rfl

theorem isSeg_nil_left (q : List String) : isSeg [] q = true := rfl

theorem ne_nil_of_isSeg_false (q p : List String) (h : isSeg q p = false) :
    q ≠ [] := by
  intro hq; subst hq; simp [isSeg] at h

/-- A successful `set_nested_property` at path `p` leaves the traversal value
of every path `q` that neither extends nor is extended by `p` unchanged. -/
theorem set_preserves_div : ∀ (p : List String) (d v d' : Value) (q : List String),
    set_nested_property d p v = some d' →
    isSeg p q = false → isSeg q p = false →
    get_nested_property d' q = get_nested_property d q
  | [], d, v, d', q, h, _, _ => by simp [set_nested_property] at h
  | [k], d, v, d', q, h, hpq, hqp => by
    obtain ⟨q0, qr, rfl⟩ : ∃ q0 qr, q = q0 :: qr := by
      cases q with
      | nil => exact absurd (isSeg_nil_left [k]) (by simp [hqp])
      | cons q0 qr => exact ⟨q0, qr, rfl⟩
    have hk : ¬ (k = q0) := by
      intro he; subst he; simp [isSeg] at hpq
    cases d <;> simp [set_nested_property] at h <;>
      rw [← h, get_nested_cons, get_nested_cons] <;>
      simp [valueGet, objGet, objGet_insert_ne k q0 v (Ne.symm hk), hk]
  | k :: k' :: rest, d, v, d', q, h, hpq, hqp => by
    cases d <;> simp [set_nested_property] at h
    case obj es =>
      obtain ⟨nv, hnv, hd'⟩ := h
      obtain ⟨q0, qr, rfl⟩ : ∃ q0 qr, q = q0 :: qr := by
        cases q with
        | nil => exact absurd (isSeg_nil_left (k :: k' :: rest)) (by simp [hqp])
        | cons q0 qr => exact ⟨q0, qr, rfl⟩
      rw [← hd', get_nested_cons, get_nested_cons]
      by_cases hk : q0 = k
      · subst hk
        have hpq' : isSeg (k' :: rest) qr = false := by
          simpa [isSeg] using hpq
        have hqp' : isSeg qr (k' :: rest) = false := by
          simpa [isSeg] using hqp
        rw [show valueGet (Value.obj (objInsert es q0 nv)) q0 = some nv by
          simp [valueGet, objGet_insert_self]]
        cases hk0 : objGet es q0 with
        | some w =>
          rw [hk0] at hnv
          simp [valueGet, hk0]
          exact set_preserves_div (k' :: rest) w v nv qr hnv hpq' hqp'
        | none =>
          rw [hk0] at hnv
          simp only [valueGet, hk0, Option.getD_none, Option.getD_some]
          have hiv := set_preserves_div (k' :: rest) (Value.obj []) v nv qr
            hnv hpq' hqp'
          rw [hiv]
          obtain ⟨q1, qrr, rfl⟩ : ∃ q1 qrr, qr = q1 :: qrr := by
            cases qr with
            | nil => exact absurd (isSeg_nil_left (k' :: rest)) (by simp [hqp'])
            | cons q1 qrr => exact ⟨q1, qrr, rfl⟩
          rw [get_nested_cons, get_nested_cons]
          simp [valueGet, objGet]
      · simp [valueGet, objGet_insert_ne k q0 nv (by simpa using hk),
          (show ¬ (k = q0) from fun he => hk he.symm)]

theorem update_fold_preserves_div :
    ∀ (es : List (String × Value)) (target merged : Value) (q : List String),
      es.foldlM (fun t kv => set_nested_property t (splitDot kv.1) kv.2) target =
          some merged →
      (∀ kv ∈ es, isSeg (splitDot kv.1) q = false ∧ isSeg q (splitDot kv.1) = false) →
      get_nested_property merged q = get_nested_property target q := by
  intro es
  induction es with
  | nil =>
    intro target merged q h _
    simp only [List.foldlM_nil, Option.pure_def, Option.some_inj] at h
    rw [h]
  | cons hd tl ih =>
    intro target merged q h hdiv
    rw [List.foldlM_cons] at h
    cases hset : set_nested_property target (splitDot hd.1) hd.2 with
    | none => rw [hset] at h; exact Option.noConfusion h
    | some t1 =>
      rw [hset] at h
      have h1 := hdiv hd (List.mem_cons_self _ _)
      rw [ih t1 merged q h (fun kv hkv => hdiv kv (List.mem_cons_of_mem _ hkv))]
      exact set_preserves_div (splitDot hd.1) target hd.2 t1 q hset h1.1 h1.2

theorem update_by_id_eq_of_found (db : Db) (id : String) (patch existing : Value)
    (h : dbFind db id = some existing) :
    update_by_id db id patch =
      (update_nested_object existing patch).map
        (fun merged => dbInsert db id merged) := by
  unfold update_by_id
  rw [h]

/-- C3: `update_by_id` on an existing record overwrites only the locations
addressed by the patch's top-level dotted keys: the traversal value of every
path that neither extends nor is extended by any patch key's path is
preserved verbatim in the stored record. -/
theorem c3_update_frame (db : Db) (id : String) (patch : Value) (db' : Db)
    (old : Value) (q : List String)
    (hup : update_by_id db id patch = some db')
    (hold : dbFind db id = some old)
    (hdiv : ∀ k ∈ topKeys patch,
      isSeg (splitDot k) q = false ∧ isSeg q (splitDot k) = false) :
    ∃ newDoc, dbFind db' id = some newDoc ∧
      get_nested_property newDoc q = get_nested_property old q := by
  rw [update_by_id_eq_of_found db id patch old hold] at hup
  cases hmerge : update_nested_object old patch with
  | none => rw [hmerge] at hup; simp at hup
  | some merged =>
    rw [hmerge] at hup
    simp only [Option.map_some', Option.some_inj] at hup
    refine ⟨merged, by rw [← hup]; exact dbFind_insert_self id merged db, ?_⟩
    cases patch with
    | obj es =>
      unfold update_nested_object at hmerge
      exact update_fold_preserves_div es old merged q hmerge
        (fun kv hkv => hdiv kv.1 (by simp [topKeys]; exact ⟨kv.2, hkv⟩))
    | null => simp [update_nested_object] at hmerge
    | bool b => simp [update_nested_object] at hmerge
    | num n => simp [update_nested_object] at hmerge
    | str s => simp [update_nested_object] at hmerge
    | arr xs => simp [update_nested_object] at hmerge

theorem c3_update_frame_witness :
    ∃ newDoc,
      dbFind [("1", Value.obj [("a", Value.num 9), ("b", Value.num 2)])] "1" =
          some newDoc ∧
        get_nested_property newDoc ["b"] =
          get_nested_property
            (Value.obj [("a", Value.num 1), ("b", Value.num 2)]) ["b"] :=
  c3_update_frame [("1", Value.obj [("a", Value.num 1), ("b", Value.num 2)])]
    "1" (Value.obj [("a", Value.num 9)])
    [("1", Value.obj [("a", Value.num 9), ("b", Value.num 2)])]
    (Value.obj [("a", Value.num 1), ("b", Value.num 2)]) ["b"]
    rfl rfl (by intro k hk; simp [topKeys] at hk; subst hk; exact ⟨rfl, rfl⟩)

theorem objInsert_insert_same (k : String) (a b : Value) :
    ∀ es : List (String × Value),
      objInsert (objInsert es k a) k b = objInsert es k b := by
  intro es
  induction es with
  | nil => simp [objInsert]
  | cons hd tl ih =>
    cases hd with
    | mk k0 w =>
      by_cases h : k0 = k <;> simp [objInsert, h, ih]

theorem objInsert_get_same (k : String) (v : Value) :
    ∀ es : List (String × Value), objGet es k = some v → objInsert es k v = es := by
  intro es
  induction es with
  | nil => intro h; simp [objGet] at h
  | cons hd tl ih =>
    cases hd with
    | mk k0 w =>
      intro h
      by_cases hk : k0 = k
      · subst hk
        simp [objGet] at h
        simp [objInsert, h]
      · simp [objGet, hk] at h
        simp [objInsert, hk, ih h]

theorem objInsert_comm_of_present (k k' : String) (x y n : Value) (hne : k ≠ k') :
    ∀ es : List (String × Value), objGet es k = some n →
      objInsert (objInsert es k x) k' y = objInsert (objInsert es k' y) k x := by
  intro es
  induction es with
  | nil => intro h; simp [objGet] at h
  | cons hd tl ih =>
    cases hd with
    | mk k0 w =>
      intro h
      have hne2 : ¬ (k' = k) := Ne.symm hne
      by_cases h0 : k0 = k
      · subst h0
        simp [objInsert, hne, hne2]
      · by_cases h1 : k0 = k'
        · subst h1
          simp [objInsert, hne, hne2]
        · simp [objGet, h0] at h
          simp [objInsert, h0, h1, ih h]

theorem set_nil (d : Value) (v : Value) : set_nested_property d [] v = none := by
  cases d <;> simp [set_nested_property]

theorem dbInsert_insert_same (id : String) (a b : Value) :
    ∀ db : Db, dbInsert (dbInsert db id a) id b = dbInsert db id b := by
  intro db
  induction db with
  | nil => simp [dbInsert]
  | cons hd tl ih =>
    cases hd with
    | mk i w =>
      by_cases h : i = id <;> simp [dbInsert, h, ih]

theorem isSeg_self : ∀ p : List String, isSeg p p = true
  | [] => rfl
  | a :: as => by simp [isSeg, isSeg_self as]

theorem isSeg_eq_append : ∀ p q : List String, isSeg p q = true →
    q = p ++ q.drop p.length
  | [], q, _ => rfl
  | a :: as, [], h => by simp [isSeg] at h
  | a :: as, b :: bs, h => by
    simp only [isSeg, Bool.and_eq_true, beq_iff_eq] at h
    obtain ⟨rfl, h2⟩ := h
    simpa using isSeg_eq_append as bs h2

theorem getNestedOpt_append (p q : List String) :
    ∀ d : Value, getNestedOpt d (p ++ q) =
      (getNestedOpt d p).bind (fun x => getNestedOpt x q) := by
  induction p with
  | nil => intro d; simp [getNestedOpt_nil]
  | cons k r ih =>
    intro d
    rw [List.cons_append, getNestedOpt_cons, getNestedOpt_cons]
    cases valueGet d k <;> simp [ih]

theorem set_set_self : ∀ (p : List String) (d v e : Value),
    set_nested_property d p v = some e → set_nested_property e p v = some e
  | [], d, v, e, h => by simp [set_nested_property] at h
  | [k], d, v, e, h => by
    cases d <;> simp [set_nested_property] at h <;> rw [← h] <;>
      simp [set_nested_property, objInsert, objInsert_insert_same]
  | k :: k' :: rest, d, v, e, h => by
    cases d <;> simp [set_nested_property] at h
    case obj es =>
      obtain ⟨nv, hnv, hd⟩ := h
      rw [← hd]
      simp only [set_nested_property, valueGet, objGet_insert_self,
        Option.getD_some]
      rw [set_set_self (k' :: rest) _ v nv hnv]
      simp [objInsert_insert_same]

theorem opt_after_set : ∀ (p : List String) (d v e : Value),
    set_nested_property d p v = some e → getNestedOpt e p = some v
  | [], d, v, e, h => by simp [set_nested_property] at h
  | [k], d, v, e, h => by
    cases d <;> simp [set_nested_property] at h <;> rw [← h] <;>
      simp [getNestedOpt_cons, getNestedOpt_nil, valueGet, objGet,
        objGet_insert_self]
  | k :: k' :: rest, d, v, e, h => by
    cases d <;> simp [set_nested_property] at h
    case obj es =>
      obtain ⟨nv, hnv, hd⟩ := h
      rw [← hd, getNestedOpt_cons]
      simp only [valueGet, objGet_insert_self, Option.some_bind]
      exact opt_after_set (k' :: rest) _ v nv hnv

theorem valueGet_eq_some (d : Value) (k : String) (n : Value)
    (h : valueGet d k = some n) :
    ∃ es, d = Value.obj es ∧ objGet es k = some n := by
  cases d <;> simp [valueGet] at h
  case obj es => exact ⟨es, rfl, h⟩

theorem trav_of_opt : ∀ (p : List String) (d r w : Value),
    getNestedOpt d p = some r → p ≠ [] →
    ∃ e, set_nested_property d p w = some e
  | [], _, _, _, _, hne => absurd rfl hne
  | [k], d, r, w, h, _ => by
    rw [getNestedOpt_cons] at h
    cases hv : valueGet d k with
    | none => rw [hv] at h; exact Option.noConfusion h
    | some n =>
      obtain ⟨es, rfl, hg⟩ := valueGet_eq_some d k n hv
      exact ⟨Value.obj (objInsert es k w), by simp [set_nested_property]⟩
  | k :: k' :: rest, d, r, w, h, _ => by
    rw [getNestedOpt_cons] at h
    cases hv : valueGet d k with
    | none => rw [hv] at h; exact Option.noConfusion h
    | some n =>
      rw [hv] at h
      simp only [Option.some_bind] at h
      obtain ⟨es, rfl, hg⟩ := valueGet_eq_some d k n hv
      obtain ⟨e', he'⟩ := trav_of_opt (k' :: rest) n r w h (by simp)
      exact ⟨Value.obj (objInsert es k e'),
        by simp [set_nested_property, hg, he']⟩

theorem set_absorb : ∀ (p : List String) (d a b e : Value),
    set_nested_property d p a = some e →
    set_nested_property e p b = set_nested_property d p b
  | [], d, a, b, e, h => by simp [set_nested_property] at h
  | [k], d, a, b, e, h => by
    cases d <;> simp [set_nested_property] at h <;> rw [← h] <;>
      simp [set_nested_property, objInsert, objInsert_insert_same]
  | k :: k' :: rest, d, a, b, e, h => by
    cases d <;> simp [set_nested_property] at h
    case obj es =>
      obtain ⟨nv, hnv, hd⟩ := h
      rw [← hd]
      simp only [set_nested_property, valueGet, objGet_insert_self,
        Option.getD_some]
      rw [set_absorb (k' :: rest) _ a b nv hnv]
      cases set_nested_property ((objGet es k).getD (Value.obj [])) (k' :: rest) b <;>
        simp [objInsert_insert_same]

theorem set_absorb_ext : ∀ (p q : List String) (d w e x : Value),
    set_nested_property d (p ++ q) w = some e →
    set_nested_property e p x = set_nested_property d p x
  | [], q, d, w, e, x, h => by rw [set_nil, set_nil]
  | [k], [], d, w, e, x, h => by
    rw [List.append_nil] at h
    exact set_absorb [k] d w x e h
  | [k], q1 :: qr, d, w, e, x, h => by
    rw [List.cons_append, List.nil_append] at h
    cases d <;> simp [set_nested_property] at h
    case obj es =>
      obtain ⟨nv, hnv, hd⟩ := h
      rw [← hd]
      simp [set_nested_property, objInsert_insert_same]
  | k :: k' :: rest, q, d, w, e, x, h => by
    have hcons : (k :: k' :: rest) ++ q = k :: ((k' :: rest) ++ q) := rfl
    rw [hcons] at h
    cases d <;> simp [set_nested_property] at h
    case obj es =>
      obtain ⟨nv, hnv, hd⟩ := h
      rw [← hd]
      simp only [set_nested_property, valueGet, objGet_insert_self,
        Option.getD_some]
      rw [set_absorb_ext (k' :: rest) q _ w nv x hnv]
      cases set_nested_property ((objGet es k).getD (Value.obj [])) (k' :: rest) x <;>
        simp [objInsert_insert_same]

theorem set_append : ∀ (p q : List String) (A r B w : Value),
    set_nested_property A p r = some B → q ≠ [] →
    set_nested_property B (p ++ q) w =
      (set_nested_property r q w).bind (fun rr => set_nested_property A p rr)
  | [], q, A, r, B, w, h, _ => by simp [set_nested_property] at h
  | [k], [], A, r, B, w, h, hq => absurd rfl hq
  | [k], q1 :: qr, A, r, B, w, h, _ => by
    cases A <;> simp [set_nested_property] at h
    case obj es =>
      rw [← h]
      show set_nested_property (Value.obj (objInsert es k r)) (k :: q1 :: qr) w = _
      simp only [set_nested_property, valueGet, objGet_insert_self,
        Option.getD_some]
      cases hrw : set_nested_property r (q1 :: qr) w <;>
        simp [hrw, objInsert_insert_same]
    case null =>
      rw [← h]
      show set_nested_property (Value.obj [(k, r)]) (k :: q1 :: qr) w = _
      simp only [set_nested_property, valueGet, objGet, if_pos rfl,
        Option.getD_some]
      cases hrw : set_nested_property r (q1 :: qr) w <;>
        simp [hrw, objInsert]
  | k :: k' :: rest, q, A, r, B, w, h, hq => by
    cases A <;> simp [set_nested_property] at h
    case obj es =>
      obtain ⟨nv, hnv, hd⟩ := h
      rw [← hd]
      have hcons : (k :: k' :: rest) ++ q = k :: ((k' :: rest) ++ q) := rfl
      rw [hcons]
      show set_nested_property (Value.obj (objInsert es k nv))
        (k :: ((k' :: rest) ++ q)) w = _
      rw [show (k' :: rest) ++ q = k' :: (rest ++ q) from rfl]
      simp only [set_nested_property, valueGet, objGet_insert_self,
        Option.getD_some]
      rw [show k' :: (rest ++ q) = (k' :: rest) ++ q from rfl]
      rw [set_append (k' :: rest) q _ r nv w hnv hq]
      cases hrw : set_nested_property r q w with
      | none => simp [hrw]
      | some rr =>
        simp only [hrw, Option.some_bind]
        cases hr2 : set_nested_property ((objGet es k).getD (Value.obj []))
            (k' :: rest) rr <;>
          simp [hr2, objInsert_insert_same]

theorem set_nested_self : ∀ (p : List String) (d r : Value),
    getNestedOpt d p = some r → p ≠ [] → set_nested_property d p r = some d
  | [], _, _, _, hne => absurd rfl hne
  | [k], d, r, h, _ => by
    rw [getNestedOpt_cons] at h
    cases hv : valueGet d k with
    | none => rw [hv] at h; exact Option.noConfusion h
    | some n =>
      rw [hv] at h
      simp only [Option.some_bind, getNestedOpt_nil, Option.some_inj] at h
      subst h
      obtain ⟨es, rfl, hg⟩ := valueGet_eq_some d k n hv
      simp [set_nested_property, objInsert_get_same k n es hg]
  | k :: k' :: rest, d, r, h, _ => by
    rw [getNestedOpt_cons] at h
    cases hv : valueGet d k with
    | none => rw [hv] at h; exact Option.noConfusion h
    | some n =>
      rw [hv] at h
      simp only [Option.some_bind] at h
      obtain ⟨es, rfl, hg⟩ := valueGet_eq_some d k n hv
      have ih := set_nested_self (k' :: rest) n r h (by simp)
      simp [set_nested_property, hg, ih, objInsert_get_same k n es hg]

theorem set_cons_obj (es : List (String × Value)) (hd : String)
    (t : List String) (v : Value) :
    set_nested_property (Value.obj es) (hd :: t) v =
      (match t with
       | [] => some v
       | _ :: _ =>
         set_nested_property ((objGet es hd).getD (Value.obj [])) t v).map
        (fun z => Value.obj (objInsert es hd z)) := by
  cases t <;> simp [set_nested_property]

theorem opt_preserves_div : ∀ (q : List String) (A w A' : Value) (p : List String),
    set_nested_property A q w = some A' →
    isSeg q p = false → isSeg p q = false →
    getNestedOpt A' p = getNestedOpt A p
  | [], A, w, A', p, h, _, _ => by simp [set_nested_property] at h
  | [k], A, w, A', p, h, hqp, hpq => by
    obtain ⟨hp, pt, rfl⟩ : ∃ hp pt, p = hp :: pt := by
      cases p with
      | nil => exact absurd (isSeg_nil_left [k]) (by simp [hpq])
      | cons hp pt => exact ⟨hp, pt, rfl⟩
    have hk : ¬ (k = hp) := by intro he; subst he; simp [isSeg] at hqp
    cases A <;> simp [set_nested_property] at h <;> rw [← h] <;>
      rw [getNestedOpt_cons, getNestedOpt_cons] <;>
      simp [valueGet, objGet, objGet_insert_ne k hp w (Ne.symm hk), hk]
  | k :: k' :: qrest, A, w, A', p, h, hqp, hpq => by
    cases A <;> simp [set_nested_property] at h
    case obj es =>
      obtain ⟨mq, hmq, hd⟩ := h
      obtain ⟨hp, pt, rfl⟩ : ∃ hp pt, p = hp :: pt := by
        cases p with
        | nil => exact absurd (isSeg_nil_left (k :: k' :: qrest)) (by simp [hpq])
        | cons hp pt => exact ⟨hp, pt, rfl⟩
      rw [← hd, getNestedOpt_cons, getNestedOpt_cons]
      by_cases hk : hp = k
      · subst hk
        have hqp' : isSeg (k' :: qrest) pt = false := by simpa [isSeg] using hqp
        have hpq' : isSeg pt (k' :: qrest) = false := by simpa [isSeg] using hpq
        rw [show valueGet (Value.obj (objInsert es hp mq)) hp = some mq by
          simp [valueGet, objGet_insert_self]]
        cases hk0 : objGet es hp with
        | some n =>
          rw [hk0] at hmq
          simp only [valueGet, hk0, Option.some_bind, Option.getD_some] at hmq ⊢
          exact opt_preserves_div (k' :: qrest) n w mq pt hmq hqp' hpq'
        | none =>
          rw [hk0] at hmq
          simp only [Option.getD_none] at hmq
          simp only [valueGet, hk0, Option.some_bind, Option.none_bind]
          have hiv := opt_preserves_div (k' :: qrest) (Value.obj []) w mq pt
            hmq hqp' hpq'
          rw [hiv]
          obtain ⟨p1, ptt, rfl⟩ : ∃ p1 ptt, pt = p1 :: ptt := by
            cases pt with
            | nil => exact absurd (isSeg_nil_left (k' :: qrest)) (by simp [hpq'])
            | cons p1 ptt => exact ⟨p1, ptt, rfl⟩
          rw [getNestedOpt_cons]
          simp [valueGet, objGet]
      · simp [valueGet, objGet_insert_ne k hp mq hk]

theorem set_comm_div : ∀ (p q : List String) (A rB w B A' : Value),
    isSeg p q = false → isSeg q p = false →
    (getNestedOpt A p).isSome = true →
    set_nested_property A p rB = some B →
    set_nested_property A q w = some A' →
    ∃ B', set_nested_property B q w = some B' ∧
      set_nested_property A' p rB = some B'
  | [], q, A, rB, w, B, A', _, _, _, hB, _ => by
    simp [set_nested_property] at hB
  | hp :: pt, q, A, rB, w, B, A', hpq, hqp, hres, hB, hA' => by
    obtain ⟨hq, qt, rfl⟩ : ∃ hq qt, q = hq :: qt := by
      cases q with
      | nil => rw [set_nil] at hA'; exact Option.noConfusion hA'
      | cons hq qt => exact ⟨hq, qt, rfl⟩
    rw [getNestedOpt_cons] at hres
    cases hv : valueGet A hp with
    | none => rw [hv] at hres; simp at hres
    | some n =>
      rw [hv] at hres
      simp only [Option.some_bind] at hres
      obtain ⟨es, rfl, hg⟩ := valueGet_eq_some A hp n hv
      by_cases hk : hp = hq
      · subst hk
        have hpq' : isSeg pt qt = false := by simpa [isSeg] using hpq
        have hqp' : isSeg qt pt = false := by simpa [isSeg] using hqp
        obtain ⟨p2, ptt, rfl⟩ : ∃ p2 ptt, pt = p2 :: ptt := by
          cases pt with
          | nil => exact absurd (isSeg_nil_left qt) (by simp [hpq'])
          | cons p2 ptt => exact ⟨p2, ptt, rfl⟩
        obtain ⟨q2, qtt, rfl⟩ : ∃ q2 qtt, qt = q2 :: qtt := by
          cases qt with
          | nil => exact absurd (isSeg_nil_left (p2 :: ptt)) (by simp [hqp'])
          | cons q2 qtt => exact ⟨q2, qtt, rfl⟩
        simp only [set_nested_property, hg, Option.getD_some] at hB hA'
        obtain ⟨nv, hnv, hBdef⟩ := Option.map_eq_some'.mp hB
        obtain ⟨mq, hmq, hA'def⟩ := Option.map_eq_some'.mp hA'
        obtain ⟨C, hC1, hC2⟩ := set_comm_div (p2 :: ptt) (q2 :: qtt) n rB w
          nv mq hpq' hqp' hres hnv hmq
        refine ⟨Value.obj (objInsert es hp C), ?_, ?_⟩
        · rw [← hBdef]
          simp only [set_nested_property, valueGet, objGet_insert_self,
            Option.getD_some, hC1, Option.map_some', objInsert_insert_same]
        · rw [← hA'def]
          simp only [set_nested_property, valueGet, objGet_insert_self,
            Option.getD_some, hC2, Option.map_some', objInsert_insert_same]
      · have hk' : ¬ (hq = hp) := Ne.symm hk
        cases pt with
        | nil =>
          simp only [set_nested_property, Option.some_inj] at hB
          cases qt with
          | nil =>
            simp only [set_nested_property, Option.some_inj] at hA'
            refine ⟨Value.obj (objInsert (objInsert es hp rB) hq w), ?_, ?_⟩
            · rw [← hB]; simp [set_nested_property]
            · rw [← hA']
              simp only [set_nested_property, Option.some_inj]
              rw [objInsert_comm_of_present hp hq rB w n hk es hg]
          | cons q2 qtt =>
            simp only [set_nested_property] at hA'
            obtain ⟨mq, hmq, hA'def⟩ := Option.map_eq_some'.mp hA'
            refine ⟨Value.obj (objInsert (objInsert es hp rB) hq mq), ?_, ?_⟩
            · rw [← hB]
              simp only [set_nested_property,
                objGet_insert_ne hp hq rB hk', hmq, Option.map_some']
            · rw [← hA'def]
              simp only [set_nested_property, Option.some_inj]
              rw [objInsert_comm_of_present hp hq rB mq n hk es hg]
        | cons p2 ptt =>
          simp only [set_nested_property, hg, Option.getD_some] at hB
          obtain ⟨nv, hnv, hBdef⟩ := Option.map_eq_some'.mp hB
          cases qt with
          | nil =>
            simp only [set_nested_property, Option.some_inj] at hA'
            refine ⟨Value.obj (objInsert (objInsert es hp nv) hq w), ?_, ?_⟩
            · rw [← hBdef]; simp [set_nested_property]
            · rw [← hA']
              simp only [set_nested_property,
                objGet_insert_ne hq hp w hk, hg, Option.getD_some, hnv,
                Option.map_some', Option.some_inj]
              rw [objInsert_comm_of_present hp hq nv w n hk es hg]
          | cons q2 qtt =>
            simp only [set_nested_property] at hA'
            obtain ⟨mq, hmq, hA'def⟩ := Option.map_eq_some'.mp hA'
            refine ⟨Value.obj (objInsert (objInsert es hp nv) hq mq), ?_, ?_⟩
            · rw [← hBdef]
              simp only [set_nested_property,
                objGet_insert_ne hp hq nv hk', hmq, Option.map_some']
            · rw [← hA'def]
              simp only [set_nested_property,
                objGet_insert_ne hq hp mq hk, hg, Option.getD_some, hnv,
                Option.map_some', Option.some_inj]
              rw [objInsert_comm_of_present hp hq nv mq n hk es hg]

theorem runOps_nil (d : Value) : runOps d [] = some d := rfl

theorem runOps_cons (d : Value) (op : List String × Value)
    (ops : List (List String × Value)) :
    runOps d (op :: ops) =
      (set_nested_property d op.1 op.2).bind (fun t => runOps t ops) := by
  cases h : set_nested_property d op.1 op.2 <;>
    simp [runOps, List.foldlM_cons, h]

theorem regionRun_nil (p : List String) (r : Value) : regionRun p r [] = some r := rfl

theorem regionRun_cons (p : List String) (r : Value) (op : List String × Value)
    (ops : List (List String × Value)) :
    regionRun p r (op :: ops) =
      (regionStep p r op).bind (fun r1 => regionRun p r1 ops) := by
  cases h : regionStep p r op <;> simp [regionRun, List.foldlM_cons, h]

theorem isSeg_false_of_not_pre (q p : List String)
    (hpre : properPre q p = false) (hpq : isSeg p q = false) :
    isSeg q p = false := by
  cases hseg : isSeg q p with
  | false => rfl
  | true =>
    exfalso
    rw [properPre, hseg] at hpre
    simp at hpre
    subst hpre
    rw [isSeg_self] at hpq
    exact Bool.noConfusion hpq

theorem region_track : ∀ (ops : List (List String × Value)) (A M r : Value)
    (p : List String),
    (∀ op ∈ ops, properPre op.1 p = false) →
    p ≠ [] →
    getNestedOpt A p = some r →
    runOps A ops = some M →
    ∃ rr, regionRun p r ops = some rr ∧ getNestedOpt M p = some rr := by
  intro ops
  induction ops with
  | nil =>
    intro A M r p _ _ hget hrun
    rw [runOps_nil, Option.some_inj] at hrun
    exact ⟨r, rfl, hrun ▸ hget⟩
  | cons op ops ih =>
    intro A M r p hpre hp hget hrun
    rw [runOps_cons] at hrun
    cases hset : set_nested_property A op.1 op.2 with
    | none => rw [hset] at hrun; exact Option.noConfusion hrun
    | some A1 =>
      rw [hset] at hrun
      simp only [Option.some_bind] at hrun
      have hpre0 := hpre op (List.mem_cons_self _ _)
      have hpres : ∀ o ∈ ops, properPre o.1 p = false :=
        fun o ho => hpre o (List.mem_cons_of_mem _ ho)
      rw [regionRun_cons]
      by_cases hseg : isSeg p op.1 = true
      · have hql := isSeg_eq_append p op.1 hseg
        by_cases hdrop : op.1.drop p.length = []
        · have hqp : op.1 = p := by rw [hql, hdrop, List.append_nil]
          rw [hqp] at hset
          have hget1 : getNestedOpt A1 p = some op.2 :=
            opt_after_set p A op.2 A1 hset
          obtain ⟨rr, hrr, hM⟩ := ih A1 M op.2 p hpres hp hget1 hrun
          refine ⟨rr, ?_, hM⟩
          rw [regionStep, if_pos hseg, if_pos hdrop]
          simpa using hrr
        · have hself : set_nested_property A p r = some A :=
            set_nested_self p A r hget hp
          rw [hql] at hset
          rw [set_append p (op.1.drop p.length) A r A op.2 hself hdrop] at hset
          cases hstep : set_nested_property r (op.1.drop p.length) op.2 with
          | none => rw [hstep] at hset; exact Option.noConfusion hset
          | some rB' =>
            rw [hstep] at hset
            simp only [Option.some_bind] at hset
            have hget1 : getNestedOpt A1 p = some rB' :=
              opt_after_set p A rB' A1 hset
            obtain ⟨rr, hrr, hM⟩ := ih A1 M rB' p hpres hp hget1 hrun
            refine ⟨rr, ?_, hM⟩
            rw [regionStep, if_pos hseg, if_neg hdrop, hstep]
            simpa using hrr
      · have hseg' : isSeg p op.1 = false := by
          cases h : isSeg p op.1
          · rfl
          · exact absurd h hseg
        have hqp : isSeg op.1 p = false :=
          isSeg_false_of_not_pre op.1 p hpre0 hseg'
        have hget1 : getNestedOpt A1 p = some r := by
          rw [opt_preserves_div op.1 A op.2 A1 p hset hqp hseg']
          exact hget
        obtain ⟨rr, hrr, hM⟩ := ih A1 M r p hpres hp hget1 hrun
        refine ⟨rr, ?_, hM⟩
        rw [regionStep, if_neg (by simp [hseg'])]
        simpa using hrr

theorem parallel_runs : ∀ (ops : List (List String × Value)) (p : List String)
    (A B rB FA sB : Value),
    (∀ op ∈ ops, properPre op.1 p = false) →
    p ≠ [] →
    (getNestedOpt A p).isSome = true →
    set_nested_property A p rB = some B →
    runOps A ops = some FA →
    regionRun p rB ops = some sB →
    ∃ FB, runOps B ops = some FB ∧ set_nested_property FA p sB = some FB := by
  intro ops
  induction ops with
  | nil =>
    intro p A B rB FA sB _ _ _ hAB hFA hsB
    rw [runOps_nil, Option.some_inj] at hFA
    rw [regionRun_nil, Option.some_inj] at hsB
    exact ⟨B, rfl, hFA ▸ hsB ▸ hAB⟩
  | cons op ops ih =>
    intro p A B rB FA sB hpre hp hres hAB hFA hsB
    rw [runOps_cons] at hFA
    cases hsetA : set_nested_property A op.1 op.2 with
    | none => rw [hsetA] at hFA; exact Option.noConfusion hFA
    | some A1 =>
      rw [hsetA] at hFA
      simp only [Option.some_bind] at hFA
      have hpre0 := hpre op (List.mem_cons_self _ _)
      have hpres : ∀ o ∈ ops, properPre o.1 p = false :=
        fun o ho => hpre o (List.mem_cons_of_mem _ ho)
      rw [regionRun_cons] at hsB
      by_cases hseg : isSeg p op.1 = true
      · have hql := isSeg_eq_append p op.1 hseg
        by_cases hdrop : op.1.drop p.length = []
        · have hqp : op.1 = p := by rw [hql, hdrop, List.append_nil]
          rw [regionStep, if_pos hseg, if_pos hdrop] at hsB
          simp only [Option.some_bind] at hsB
          rw [hqp] at hsetA
          have hgB : set_nested_property B op.1 op.2 = some A1 := by
            rw [hqp, set_absorb p A rB op.2 B hAB]
            exact hsetA
          have hself : set_nested_property A1 p op.2 = some A1 :=
            set_set_self p A op.2 A1 hsetA
          have hres1 : (getNestedOpt A1 p).isSome = true := by
            rw [opt_after_set p A op.2 A1 hsetA]; rfl
          obtain ⟨FB, h1, h2⟩ := ih p A1 A1 op.2 FA sB hpres hp hres1 hself
            hFA hsB
          refine ⟨FB, ?_, h2⟩
          rw [runOps_cons, hgB]
          simpa using h1
        · rw [regionStep, if_pos hseg, if_neg hdrop] at hsB
          cases hstep : set_nested_property rB (op.1.drop p.length) op.2 with
          | none => rw [hstep] at hsB; exact Option.noConfusion hsB
          | some rB' =>
            rw [hstep] at hsB
            simp only [Option.some_bind] at hsB
            obtain ⟨s0, hs0⟩ := Option.isSome_iff_exists.mp hres
            obtain ⟨B1, hB1⟩ := trav_of_opt p A s0 rB' hs0 hp
            have hgB : set_nested_property B op.1 op.2 = some B1 := by
              rw [hql, set_append p (op.1.drop p.length) A rB B op.2 hAB hdrop,
                hstep]
              simpa using hB1
            rw [hql] at hsetA
            have hinv : set_nested_property A1 p rB' = some B1 := by
              rw [set_absorb_ext p (op.1.drop p.length) A op.2 A1 rB' hsetA]
              exact hB1
            have hres1 : (getNestedOpt A1 p).isSome = true := by
              have hfull : getNestedOpt A1 (p ++ op.1.drop p.length) = some op.2 :=
                opt_after_set _ A op.2 A1 hsetA
              rw [getNestedOpt_append] at hfull
              cases hx : getNestedOpt A1 p with
              | none => rw [hx] at hfull; exact Option.noConfusion hfull
              | some x => rfl
            obtain ⟨FB, h1, h2⟩ := ih p A1 B1 rB' FA sB hpres hp hres1 hinv
              hFA hsB
            refine ⟨FB, ?_, h2⟩
            rw [runOps_cons, hgB]
            simpa using h1
      · have hseg' : isSeg p op.1 = false := by
          cases h : isSeg p op.1
          · rfl
          · exact absurd h hseg
        have hqp : isSeg op.1 p = false :=
          isSeg_false_of_not_pre op.1 p hpre0 hseg'
        rw [regionStep, if_neg (by simp [hseg'])] at hsB
        simp only [Option.some_bind] at hsB
        obtain ⟨B1, hB1, hinv⟩ := set_comm_div p op.1 A rB op.2 B A1
          hseg' hqp hres hAB hsetA
        have hres1 : (getNestedOpt A1 p).isSome = true := by
          rw [opt_preserves_div op.1 A op.2 A1 p hsetA hqp hseg']
          exact hres
        obtain ⟨FB, h1, h2⟩ := ih p A1 B1 rB FA sB hpres hp hres1 hinv hFA hsB
        refine ⟨FB, ?_, h2⟩
        rw [runOps_cons, hB1]
        simpa using h1

/-- Fixpoint theorem: a sequence of path-assignments whose order satisfies
`opsOK` (as sorted map iteration does) maps its own result to itself. -/
theorem runOps_idem : ∀ (ops : List (List String × Value)) (d M : Value),
    opsOK ops = true → runOps d ops = some M → runOps M ops = some M := by
  intro ops
  induction ops with
  | nil =>
    intro d M _ h
    rw [runOps_nil]
  | cons op ops ih =>
    intro d M hok hrun
    rw [show opsOK (op :: ops) =
      (ops.all (fun o => !properPre o.1 op.1) && opsOK ops) from by
        cases op
        rfl] at hok
    rw [Bool.and_eq_true] at hok
    obtain ⟨hall, hok'⟩ := hok
    have hallf : ∀ o ∈ ops, properPre o.1 op.1 = false := by
      intro o ho
      have := List.all_eq_true.mp hall o ho
      simpa using this
    rw [runOps_cons] at hrun
    cases hset : set_nested_property d op.1 op.2 with
    | none => rw [hset] at hrun; exact Option.noConfusion hrun
    | some d1 =>
      rw [hset] at hrun
      simp only [Option.some_bind] at hrun
      have hfix := ih d1 M hok' hrun
      have hp_ne : op.1 ≠ [] := by
        intro h
        rw [h, set_nil] at hset
        exact Option.noConfusion hset
      have hget1 : getNestedOpt d1 op.1 = some op.2 :=
        opt_after_set op.1 d op.2 d1 hset
      obtain ⟨rr, hrr, hMrr⟩ := region_track ops d1 M op.2 op.1 hallf hp_ne
        hget1 hrun
      obtain ⟨M1, hM1⟩ := trav_of_opt op.1 M rr op.2 hMrr hp_ne
      obtain ⟨FB, hFB1, hFB2⟩ := parallel_runs ops op.1 M M1 op.2 M rr hallf
        hp_ne (by rw [hMrr]; rfl) hM1 hfix hrr
      have hself : set_nested_property M op.1 rr = some M :=
        set_nested_self op.1 M rr hMrr hp_ne
      have hFBM : FB = M := by
        rw [hself] at hFB2
        exact (Option.some_inj.mp hFB2).symm
      rw [runOps_cons, hM1]
      simp only [Option.some_bind]
      rw [hFB1, hFBM]

theorem update_eq_runOps (es : List (String × Value)) : ∀ target : Value,
    update_nested_object target (Value.obj es) =
      runOps target (es.map (fun kv => (splitDot kv.1, kv.2))) := by
  induction es with
  | nil => intro target; rfl
  | cons hd tl ih =>
    intro target
    show (hd :: tl).foldlM
        (fun t kv => set_nested_property t (splitDot kv.1) kv.2) target = _
    rw [List.foldlM_cons, List.map_cons, runOps_cons]
    cases hset : set_nested_property target (splitDot hd.1) hd.2 with
    | none => simp [hset]
    | some t1 => simp only [hset, Option.some_bind]; exact ih t1

theorem update_nested_object_idem (existing patch merged : Value)
    (hord : patchOrdered patch = true)
    (h : update_nested_object existing patch = some merged) :
    update_nested_object merged patch = some merged := by
  cases patch with
  | obj es =>
    rw [update_eq_runOps] at h ⊢
    exact runOps_idem _ existing merged hord h
  | null => simp [update_nested_object] at h
  | bool b => simp [update_nested_object] at h
  | num n => simp [update_nested_object] at h
  | str s => simp [update_nested_object] at h
  | arr xs => simp [update_nested_object] at h

/-- C5: applying the same patch twice through `update_by_id` yields the same
final stored record as applying it once — the second application succeeds
and changes nothing.  The hypothesis `patchOrdered` is the key-iteration
order invariant every `serde_json`-built patch object satisfies. -/
theorem c5_update_by_id_idem (db : Db) (id : String) (patch : Value) (db1 : Db)
    (hord : patchOrdered patch = true)
    (h1 : update_by_id db id patch = some db1) :
    update_by_id db1 id patch = some db1 := by
  cases hfind : dbFind db id with
  | none =>
    have hdb : some db = some db1 := by
      rw [← h1]
      unfold update_by_id
      rw [hfind]
    rw [Option.some_inj] at hdb
    subst hdb
    unfold update_by_id
    rw [hfind]
  | some existing =>
    rw [update_by_id_eq_of_found db id patch existing hfind] at h1
    obtain ⟨merged, hm, hdb1⟩ := Option.map_eq_some'.mp h1
    have hfind1 : dbFind db1 id = some merged := by
      rw [← hdb1]
      exact dbFind_insert_self id merged db
    rw [update_by_id_eq_of_found db1 id patch merged hfind1]
    rw [update_nested_object_idem existing patch merged hord hm]
    simp only [Option.map_some', Option.some_inj]
    rw [← hdb1]
    exact dbInsert_insert_same id merged merged db

theorem c5_update_by_id_idem_witness :
    update_by_id [("1", Value.obj [("a", Value.num 2)])] "1"
        (Value.obj [("a", Value.num 2)]) =
      some [("1", Value.obj [("a", Value.num 2)])] :=
  c5_update_by_id_idem [("1", Value.obj [("a", Value.num 1)])] "1"
    (Value.obj [("a", Value.num 2)]) [("1", Value.obj [("a", Value.num 2)])]
    (by decide) rfl

theorem splitDotAux_no_dot : ∀ (cs : List Char) (acc : List Char),
    (∀ c ∈ cs, c ≠ '.') →
    splitDotAux cs acc = [String.mk (acc.reverse ++ cs)]
  | [], acc, _ => by simp [splitDotAux]
  | c :: cs, acc, h => by
    have hc : ¬ (c = '.') := h c (List.mem_cons_self _ _)
    rw [splitDotAux, if_neg hc,
      splitDotAux_no_dot cs (c :: acc) (fun d hd => h d (List.mem_cons_of_mem _ hd))]
    simp

theorem splitDot_single (k : String) (h : dotFree k = true) :
    splitDot k = [k] := by
  rw [splitDot, splitDotAux_no_dot k.data [] (by simpa [dotFree, List.all_eq_true] using h)]
  cases k with
  | mk cs => simp

theorem objInsert_append_left (k : String) (v : Value) :
    ∀ (P es : List (String × Value)), k ∉ P.map Prod.fst →
      objInsert (P ++ es) k v = P ++ objInsert es k v := by
  intro P es
  induction P with
  | nil => intro _; simp
  | cons hd tl ih =>
    cases hd with
    | mk k0 w =>
      intro hmem
      simp only [List.map_cons, List.mem_cons] at hmem
      push_neg at hmem
      rw [List.cons_append, objInsert, if_neg (fun he => hmem.1 he.symm)]
      rw [ih hmem.2]
      rfl

theorem merge_flat_aux : ∀ (es' P tl : List (String × Value)),
    tl.map Prod.fst = es'.map Prod.fst →
    ((P ++ tl).map Prod.fst).Nodup →
    (∀ kv ∈ es', dotFree kv.1 = true) →
    es'.foldlM (fun t kv => set_nested_property t (splitDot kv.1) kv.2)
        (Value.obj (P ++ tl)) =
      some (Value.obj (P ++ es')) := by
  intro es'
  induction es' with
  | nil =>
    intro P tl hkeys _ _
    have : tl = [] := by
      cases tl with
      | nil => rfl
      | cons a b => simp at hkeys
    subst this
    rfl
  | cons hd tl' ih =>
    intro P tl hkeys hnodup hdot
    cases hd with
    | mk k v =>
      obtain ⟨w, tlr, rfl⟩ : ∃ w tlr, tl = (k, w) :: tlr := by
        cases tl with
        | nil => simp at hkeys
        | cons a b =>
          cases a with
          | mk ka wa =>
            simp only [List.map_cons, List.cons.injEq] at hkeys
            exact ⟨wa, b, by rw [hkeys.1]⟩
      have hkeys' : tlr.map Prod.fst = tl'.map Prod.fst := by
        simpa using hkeys
      have hdot0 : dotFree k = true := hdot (k, v) (List.mem_cons_self _ _)
      have hkP : k ∉ P.map Prod.fst := by
        intro hkp
        rw [List.map_append] at hnodup
        obtain ⟨-, -, hforb⟩ := List.nodup_append.mp hnodup
        exact hforb hkp (by simp)
      rw [List.foldlM_cons, splitDot_single k hdot0]
      rw [show set_nested_property (Value.obj (P ++ (k, w) :: tlr)) [k] v =
        some (Value.obj (objInsert (P ++ (k, w) :: tlr) k v)) from rfl]
      rw [show ((some (Value.obj (objInsert (P ++ (k, w) :: tlr) k v)) >>=
          fun t => tl'.foldlM
            (fun t kv => set_nested_property t (splitDot kv.1) kv.2) t) =
        tl'.foldlM (fun t kv => set_nested_property t (splitDot kv.1) kv.2)
          (Value.obj (objInsert (P ++ (k, w) :: tlr) k v))) from rfl]
      rw [objInsert_append_left k v P ((k, w) :: tlr) hkP]
      rw [show objInsert ((k, w) :: tlr) k v = (k, v) :: tlr by
        simp [objInsert]]
      have hassoc : P ++ (k, v) :: tlr = (P ++ [(k, v)]) ++ tlr := by simp
      have hassoc2 : P ++ (k, v) :: tl' = (P ++ [(k, v)]) ++ tl' := by simp
      rw [hassoc, hassoc2]
      apply ih (P ++ [(k, v)]) tlr hkeys'
      · have : ((P ++ [(k, v)]) ++ tlr).map Prod.fst =
            (P ++ (k, w) :: tlr).map Prod.fst := by simp
        rw [this]
        exact hnodup
      · exact fun kv hkv => hdot kv (List.mem_cons_of_mem _ hkv)

/-- Writing back a whole record whose top-level keys are duplicate-free and
dot-free through the merge reproduces exactly that record. -/
theorem merge_flat (es es' : List (String × Value))
    (hkeys : es.map Prod.fst = es'.map Prod.fst)
    (hnodup : (es.map Prod.fst).Nodup)
    (hdot : ∀ kv ∈ es', dotFree kv.1 = true) :
    update_nested_object (Value.obj es) (Value.obj es') =
      some (Value.obj es') := by
  have := merge_flat_aux es' [] es hkeys (by simpa using hnodup) hdot
  simpa [update_nested_object] using this

theorem objInsert_map_fst_of_present (k : String) (z n : Value) :
    ∀ es : List (String × Value), objGet es k = some n →
      (objInsert es k z).map Prod.fst = es.map Prod.fst := by
  intro es
  induction es with
  | nil => intro h; simp [objGet] at h
  | cons hd tl ih =>
    cases hd with
    | mk k0 w =>
      intro h
      by_cases h0 : k0 = k
      · subst h0; simp [objInsert]
      · simp only [objGet, if_neg h0] at h
        simp [objInsert, h0, ih h]

theorem set_shape_of_present : ∀ (t : List String) (es : List (String × Value))
    (k : String) (v e : Value),
    set_nested_property (Value.obj es) (k :: t) v = some e →
    ∃ z, e = Value.obj (objInsert es k z) := by
  intro t es k v e h
  cases t with
  | nil =>
    simp only [set_nested_property, Option.some_inj] at h
    exact ⟨v, h.symm⟩
  | cons t1 tr =>
    simp only [set_nested_property] at h
    obtain ⟨nv, -, hdef⟩ := Option.map_eq_some'.mp h
    exact ⟨nv, hdef.symm⟩

theorem get_eq_of_opt (d : Value) (p : List String) (v : Value)
    (h : getNestedOpt d p = some v) : get_nested_property d p = v := by
  rw [get_nested_eq_strict, h]
  rfl

theorem opt_eq_of_get_ne_null (d : Value) (p : List String) (v : Value)
    (hget : get_nested_property d p = v) (hv : v ≠ Value.null) :
    getNestedOpt d p = some v := by
  rw [get_nested_eq_strict] at hget
  cases h : getNestedOpt d p with
  | none => rw [h] at hget; exact absurd hget.symm hv
  | some w => rw [h] at hget; rw [Option.getD_some] at hget; rw [hget]

theorem splitDotAux_ne_nil : ∀ (cs acc : List Char), splitDotAux cs acc ≠ []
  | [], acc => by simp [splitDotAux]
  | c :: cs, acc => by
    rw [splitDotAux]
    by_cases hc : c = '.'
    · simp [hc]
    · rw [if_neg hc]
      exact splitDotAux_ne_nil cs (c :: acc)

theorem splitDot_ne_nil (s : String) : splitDot s ≠ [] :=
  splitDotAux_ne_nil s.data []

theorem dbFind_of_mem_nodup : ∀ (db : Db) (id : String) (doc : Value),
    (db.map Prod.fst).Nodup → (id, doc) ∈ db → dbFind db id = some doc := by
  intro db
  induction db with
  | nil => intro id doc _ h; cases h
  | cons hd tl ih =>
    intro id doc hnodup hmem
    cases hd with
    | mk i d =>
      rw [List.map_cons, List.nodup_cons] at hnodup
      rcases List.mem_cons.mp hmem with heq | htl
      · cases heq
        simp [dbFind]
      · have hid2 : id ∈ tl.map Prod.fst :=
          List.mem_map.mpr ⟨(id, doc), htl, rfl⟩
        have hi : ¬ (i = id) := fun he => hnodup.1 (he ▸ hid2)
        rw [dbFind, if_neg hi]
        exact ih id doc hnodup.2 htl

theorem db_snd_split (getId : Value → String) :
    ∀ (db : Db) (id : String) (doc : Value),
      (db.map Prod.fst).Nodup →
      (∀ p ∈ db, getId p.2 = p.1) →
      (id, doc) ∈ db →
      ∃ pre post, db.map Prod.snd = pre ++ doc :: post ∧
        (∀ d ∈ pre, getId d ≠ id) ∧ (∀ d ∈ post, getId d ≠ id) := by
  intro db
  induction db with
  | nil => intro id doc _ _ h; cases h
  | cons hd tl ih =>
    intro id doc hnodup hcon hmem
    cases hd with
    | mk i d =>
      rw [List.map_cons, List.nodup_cons] at hnodup
      rcases List.mem_cons.mp hmem with heq | htl
      · cases heq
        refine ⟨[], tl.map Prod.snd, by simp, by simp, ?_⟩
        intro d' hd'
        obtain ⟨⟨i', d''⟩, hmem', rfl⟩ := List.mem_map.mp hd'
        rw [hcon _ (List.mem_cons_of_mem _ hmem')]
        intro he
        subst he
        exact hnodup.1 (List.mem_map.mpr ⟨(i', d''), hmem', rfl⟩)
      · obtain ⟨pre, post, hsplit, hpre, hpost⟩ :=
          ih id doc hnodup.2 (fun p hp => hcon p (List.mem_cons_of_mem _ hp)) htl
        refine ⟨d :: pre, post, by simp [hsplit], ?_, hpost⟩
        intro d' hd'
        rcases List.mem_cons.mp hd' with heq2 | hd''
        · subst heq2
          rw [hcon (i, d') (List.mem_cons_self _ _)]
          intro he
          apply hnodup.1
          rw [he]
          exact List.mem_map.mpr ⟨(id, doc), htl, rfl⟩
        · exact hpre d' hd''

theorem foldlM_keep (f : Db → Value → Option Db) (id : String) :
    ∀ (items : List Value) (cur cur' : Db),
      (∀ c c' item, item ∈ items → f c item = some c' →
        dbFind c' id = dbFind c id) →
      items.foldlM f cur = some cur' →
      dbFind cur' id = dbFind cur id := by
  intro items
  induction items with
  | nil =>
    intro cur cur' _ h
    rw [List.foldlM_nil] at h
    cases h
    rfl
  | cons item tl ih =>
    intro cur cur' hstep h
    rw [List.foldlM_cons] at h
    cases hf : f cur item with
    | none => rw [hf] at h; exact Option.noConfusion h
    | some cur1 =>
      rw [hf] at h
      have h' : tl.foldlM f cur1 = some cur' := h
      rw [ih cur1 cur' (fun c c' it hit => hstep c c' it
        (List.mem_cons_of_mem _ hit)) h']
      exact hstep cur cur1 item (List.mem_cons_self _ _) hf

theorem pushStep_eq_of_found (getId : Value → String) (arrayPath : String)
    (elem : Value) (cur : Db) (item data : Value)
    (hfind : dbFind cur (getId item) = some data) :
    pushStep getId arrayPath elem cur item =
      pushBody arrayPath elem cur (getId item) data := by
  unfold pushStep
  rw [hfind]

theorem pullStep_eq_of_found (getId : Value → String) (arrayPath : String)
    (pullCond : Value) (cur : Db) (item data : Value)
    (hfind : dbFind cur (getId item) = some data) :
    pullStep getId arrayPath pullCond cur item =
      pullBody arrayPath pullCond cur (getId item) data := by
  unfold pullStep
  rw [hfind]

theorem pushStep_eq_of_missing (getId : Value → String) (arrayPath : String)
    (elem : Value) (cur : Db) (item : Value)
    (hfind : dbFind cur (getId item) = none) :
    pushStep getId arrayPath elem cur item = some cur := by
  unfold pushStep
  rw [hfind]

theorem pullStep_eq_of_missing (getId : Value → String) (arrayPath : String)
    (pullCond : Value) (cur : Db) (item : Value)
    (hfind : dbFind cur (getId item) = none) :
    pullStep getId arrayPath pullCond cur item = some cur := by
  unfold pullStep
  rw [hfind]

theorem pushBody_not_arr (arrayPath : String) (elem : Value) (cur : Db)
    (id : String) (data v : Value)
    (harr : get_nested_property data (splitDot arrayPath) = v)
    (hv : v.isArr = false) :
    pushBody arrayPath elem cur id data = some cur := by
  unfold pushBody
  rw [harr]
  cases v
  case arr xs => simp [Value.isArr] at hv
  all_goals rfl

theorem pullBody_not_arr (arrayPath : String) (pullCond : Value) (cur : Db)
    (id : String) (data v : Value)
    (harr : get_nested_property data (splitDot arrayPath) = v)
    (hv : v.isArr = false) :
    pullBody arrayPath pullCond cur id data = some cur := by
  unfold pullBody
  rw [harr]
  cases v
  case arr xs => simp [Value.isArr] at hv
  all_goals rfl

theorem pushBody_arr (arrayPath : String) (elem : Value) (cur : Db)
    (id : String) (data : Value) (xs : List Value)
    (harr : get_nested_property data (splitDot arrayPath) = Value.arr xs) :
    pushBody arrayPath elem cur id data =
      (set_nested_property data (splitDot arrayPath)
          (Value.arr (xs ++ [elem]))).bind
        (fun updated => update_by_id cur id updated) := by
  unfold pushBody
  rw [harr]

theorem pullBody_arr (arrayPath : String) (pullCond : Value) (cur : Db)
    (id : String) (data : Value) (xs : List Value)
    (harr : get_nested_property data (splitDot arrayPath) = Value.arr xs) :
    pullBody arrayPath pullCond cur id data =
      (set_nested_property data (splitDot arrayPath)
          (Value.arr (xs.filter (fun e => ! matches_condition e pullCond)))).bind
        (fun updated => update_by_id cur id updated) := by
  unfold pullBody
  rw [harr]

theorem flatObj_dest (es : List (String × Value))
    (h : flatObj (Value.obj es) = true) :
    (∀ k ∈ es.map Prod.fst, dotFree k = true) ∧ (es.map Prod.fst).Nodup := by
  rw [flatObj, Bool.and_eq_true] at h
  exact ⟨fun k hk => List.all_eq_true.mp h.1 k hk, of_decide_eq_true h.2⟩

/-- Core of `push`/`pull`'s per-record write: setting a new value at a
strictly-resolving path of a stored flat record succeeds, and the write-back
through `update_by_id` stores exactly the updated record. -/
theorem record_array_write (cur : Db) (id : String)
    (es : List (String × Value)) (keys : List String) (newVal : Value)
    (hfind : dbFind cur id = some (Value.obj es))
    (hflat : flatObj (Value.obj es) = true)
    (hopt : (getNestedOpt (Value.obj es) keys).isSome = true)
    (hne : keys ≠ []) :
    ∃ updated, set_nested_property (Value.obj es) keys newVal = some updated ∧
      update_by_id cur id updated = some (dbInsert cur id updated) ∧
      getNestedOpt updated keys = some newVal := by
  obtain ⟨r0, hr0⟩ := Option.isSome_iff_exists.mp hopt
  obtain ⟨updated, hupd⟩ := trav_of_opt keys (Value.obj es) r0 newVal hr0 hne
  refine ⟨updated, hupd, ?_, opt_after_set keys _ newVal updated hupd⟩
  obtain ⟨h0, t0, rfl⟩ : ∃ h0 t0, keys = h0 :: t0 := by
    cases keys with
    | nil => exact absurd rfl hne
    | cons h0 t0 => exact ⟨h0, t0, rfl⟩
  rw [getNestedOpt_cons] at hr0
  cases hv : valueGet (Value.obj es) h0 with
  | none => rw [hv] at hr0; exact Option.noConfusion hr0
  | some n =>
    have hg : objGet es h0 = some n := hv
    obtain ⟨z, rfl⟩ := set_shape_of_present t0 es h0 newVal updated hupd
    obtain ⟨hdot, hnodup⟩ := flatObj_dest es hflat
    have hkeys : es.map Prod.fst = (objInsert es h0 z).map Prod.fst :=
      (objInsert_map_fst_of_present h0 z n es hg).symm
    have hdot' : ∀ kv ∈ objInsert es h0 z, dotFree kv.1 = true := by
      intro kv hkv
      apply hdot
      rw [hkeys]
      exact List.mem_map.mpr ⟨kv, hkv, rfl⟩
    have hmerge := merge_flat es (objInsert es h0 z) hkeys hnodup hdot'
    rw [update_by_id_eq_of_found cur id _ _ hfind, hmerge]
    rfl

theorem pushStep_act (getId : Value → String) (arrayPath : String)
    (elem : Value) (cur : Db) (id : String) (item doc : Value) (xs : List Value)
    (hid : getId item = id)
    (hfind : dbFind cur id = some doc)
    (hflat : flatObj doc = true)
    (harr : get_nested_property doc (splitDot arrayPath) = Value.arr xs) :
    ∃ updated,
      pushStep getId arrayPath elem cur item = some (dbInsert cur id updated) ∧
        get_nested_property updated (splitDot arrayPath) =
          Value.arr (xs ++ [elem]) := by
  obtain ⟨es, rfl⟩ : ∃ es, doc = Value.obj es := by
    cases doc <;> simp [flatObj] at hflat <;> exact ⟨_, rfl⟩
  have hopt := opt_eq_of_get_ne_null _ _ _ harr (by simp)
  obtain ⟨updated, hset, hupdid, hgot⟩ := record_array_write cur id es
    (splitDot arrayPath) (Value.arr (xs ++ [elem])) hfind hflat
    (by rw [hopt]; rfl) (splitDot_ne_nil _)
  refine ⟨updated, ?_, get_eq_of_opt _ _ _ hgot⟩
  rw [pushStep_eq_of_found getId arrayPath elem cur item (Value.obj es)
    (by rw [hid]; exact hfind)]
  rw [pushBody_arr arrayPath elem cur (getId item) (Value.obj es) xs harr]
  rw [hset]
  simp only [Option.some_bind]
  rw [hid]
  exact hupdid

theorem pullStep_act (getId : Value → String) (arrayPath : String)
    (pullCond : Value) (cur : Db) (id : String) (item doc : Value)
    (xs : List Value)
    (hid : getId item = id)
    (hfind : dbFind cur id = some doc)
    (hflat : flatObj doc = true)
    (harr : get_nested_property doc (splitDot arrayPath) = Value.arr xs) :
    ∃ updated,
      pullStep getId arrayPath pullCond cur item = some (dbInsert cur id updated) ∧
        get_nested_property updated (splitDot arrayPath) =
          Value.arr (xs.filter (fun e => ! matches_condition e pullCond)) := by
  obtain ⟨es, rfl⟩ : ∃ es, doc = Value.obj es := by
    cases doc <;> simp [flatObj] at hflat <;> exact ⟨_, rfl⟩
  have hopt := opt_eq_of_get_ne_null _ _ _ harr (by simp)
  obtain ⟨updated, hset, hupdid, hgot⟩ := record_array_write cur id es
    (splitDot arrayPath)
    (Value.arr (xs.filter (fun e => ! matches_condition e pullCond))) hfind hflat
    (by rw [hopt]; rfl) (splitDot_ne_nil _)
  refine ⟨updated, ?_, get_eq_of_opt _ _ _ hgot⟩
  rw [pullStep_eq_of_found getId arrayPath pullCond cur item (Value.obj es)
    (by rw [hid]; exact hfind)]
  rw [pullBody_arr arrayPath pullCond cur (getId item) (Value.obj es) xs harr]
  rw [hset]
  simp only [Option.some_bind]
  rw [hid]
  exact hupdid

theorem pushStep_frame (getId : Value → String) (arrayPath : String)
    (elem : Value) (cur cur' : Db) (item : Value) (id : String)
    (h : pushStep getId arrayPath elem cur item = some cur')
    (hne : getId item ≠ id) :
    dbFind cur' id = dbFind cur id := by
  cases hfind : dbFind cur (getId item) with
  | none =>
    rw [pushStep_eq_of_missing getId arrayPath elem cur item hfind] at h
    rw [← Option.some_inj.mp h]
  | some data =>
    rw [pushStep_eq_of_found getId arrayPath elem cur item data hfind] at h
    cases harr : get_nested_property data (splitDot arrayPath)
    case arr xs =>
      rw [pushBody_arr arrayPath elem cur (getId item) data xs harr] at h
      cases hset : set_nested_property data (splitDot arrayPath)
          (Value.arr (xs ++ [elem])) with
      | none => rw [hset] at h; exact Option.noConfusion h
      | some updated =>
        rw [hset] at h
        simp only [Option.some_bind] at h
        rw [update_by_id_eq_of_found cur (getId item) updated data hfind] at h
        obtain ⟨merged, -, hcur'⟩ := Option.map_eq_some'.mp h
        rw [← hcur']
        exact dbFind_insert_ne (getId item) id merged (Ne.symm hne) cur
    all_goals
      rw [pushBody_not_arr arrayPath elem cur (getId item) data _ harr rfl] at h
    all_goals rw [← Option.some_inj.mp h]

theorem pullStep_frame (getId : Value → String) (arrayPath : String)
    (pullCond : Value) (cur cur' : Db) (item : Value) (id : String)
    (h : pullStep getId arrayPath pullCond cur item = some cur')
    (hne : getId item ≠ id) :
    dbFind cur' id = dbFind cur id := by
  cases hfind : dbFind cur (getId item) with
  | none =>
    rw [pullStep_eq_of_missing getId arrayPath pullCond cur item hfind] at h
    rw [← Option.some_inj.mp h]
  | some data =>
    rw [pullStep_eq_of_found getId arrayPath pullCond cur item data hfind] at h
    cases harr : get_nested_property data (splitDot arrayPath)
    case arr xs =>
      rw [pullBody_arr arrayPath pullCond cur (getId item) data xs harr] at h
      cases hset : set_nested_property data (splitDot arrayPath)
          (Value.arr (xs.filter (fun e => ! matches_condition e pullCond))) with
      | none => rw [hset] at h; exact Option.noConfusion h
      | some updated =>
        rw [hset] at h
        simp only [Option.some_bind] at h
        rw [update_by_id_eq_of_found cur (getId item) updated data hfind] at h
        obtain ⟨merged, -, hcur'⟩ := Option.map_eq_some'.mp h
        rw [← hcur']
        exact dbFind_insert_ne (getId item) id merged (Ne.symm hne) cur
    all_goals
      rw [pullBody_not_arr arrayPath pullCond cur (getId item) data _ harr rfl] at h
    all_goals rw [← Option.some_inj.mp h]

theorem foldlM_append_opt (f : Db → Value → Option Db) :
    ∀ (l1 l2 : List Value) (b : Db),
      (l1 ++ l2).foldlM f b = (l1.foldlM f b).bind (fun c => l2.foldlM f c) := by
  intro l1
  induction l1 with
  | nil => intro l2 b; rfl
  | cons a l1' ih =>
    intro l2 b
    rw [List.cons_append, List.foldlM_cons, List.foldlM_cons]
    cases hf : f b a with
    | none => rfl
    | some b1 => exact ih l2 b1

/-- C8 (amended): for every matched record (stored under its own extracted
identifier, identifiers duplicate-free), `push` appends the element — the
array at the path grows by exactly one — provided the record's top-level
field names are duplicate-free and dot-free (a top-level name containing a
dot is re-split by the write-back merge and can overwrite other locations);
and when the path does not resolve to an array the record is left entirely
unchanged. -/
theorem c8_push_amended (getId : Value → String) (db db' : Db) (cond : Value)
    (arrayPath : String) (elem : Value) (id : String) (doc : Value)
    (hnodup : (db.map Prod.fst).Nodup)
    (hcontract : ∀ p ∈ db, getId p.2 = p.1)
    (hmem : (id, doc) ∈ db)
    (hmatch : matches_condition doc cond = true)
    (hpush : push getId db cond arrayPath elem = some db') :
    (∀ xs, get_nested_property doc (splitDot arrayPath) = Value.arr xs →
      flatObj doc = true →
      ∃ newDoc, dbFind db' id = some newDoc ∧
        get_nested_property newDoc (splitDot arrayPath) =
          Value.arr (xs ++ [elem])) ∧
    ((get_nested_property doc (splitDot arrayPath)).isArr = false →
      dbFind db' id = some doc) := by
  have hid : getId doc = id := hcontract (id, doc) hmem
  have hfind0 : dbFind db id = some doc :=
    dbFind_of_mem_nodup db id doc hnodup hmem
  obtain ⟨pre, post, hsplit, hpre, hpost⟩ :=
    db_snd_split getId db id doc hnodup hcontract hmem
  have hitems : find db cond =
      pre.filter (fun v => matches_condition v cond) ++
        doc :: post.filter (fun v => matches_condition v cond) := by
    unfold find
    have hfc : List.filter (fun v => matches_condition v cond) (doc :: post) =
        doc :: List.filter (fun v => matches_condition v cond) post :=
      List.filter_cons_of_pos hmatch
    rw [hsplit, List.filter_append, hfc]
  unfold push at hpush
  rw [hitems, foldlM_append_opt] at hpush
  cases hpre_run : (pre.filter (fun v => matches_condition v cond)).foldlM
      (pushStep getId arrayPath elem) db with
  | none => rw [hpre_run] at hpush; exact Option.noConfusion hpush
  | some cur1 =>
    rw [hpre_run] at hpush
    simp only [Option.some_bind] at hpush
    have hframe_pre : dbFind cur1 id = dbFind db id :=
      foldlM_keep (pushStep getId arrayPath elem) id _ db cur1
        (fun c c' it hit hstep =>
          pushStep_frame getId arrayPath elem c c' it id hstep
            (hpre it (List.mem_of_mem_filter hit)))
        hpre_run
    have hfind1 : dbFind cur1 id = some doc := by rw [hframe_pre]; exact hfind0
    rw [List.foldlM_cons] at hpush
    constructor
    · intro xs harr hflat
      obtain ⟨updated, hstep, hgot⟩ := pushStep_act getId arrayPath elem cur1
        id doc doc xs hid hfind1 hflat harr
      rw [hstep] at hpush
      have hrest : (post.filter (fun v => matches_condition v cond)).foldlM
          (pushStep getId arrayPath elem) (dbInsert cur1 id updated) =
            some db' := hpush
      have hframe_post : dbFind db' id = dbFind (dbInsert cur1 id updated) id :=
        foldlM_keep (pushStep getId arrayPath elem) id _ _ db'
          (fun c c' it hit hstep2 =>
            pushStep_frame getId arrayPath elem c c' it id hstep2
              (hpost it (List.mem_of_mem_filter hit)))
          hrest
      refine ⟨updated, ?_, hgot⟩
      rw [hframe_post]
      exact dbFind_insert_self id updated cur1
    · intro hnarr
      have hstep : pushStep getId arrayPath elem cur1 doc = some cur1 := by
        rw [pushStep_eq_of_found getId arrayPath elem cur1 doc doc
          (by rw [hid]; exact hfind1)]
        exact pushBody_not_arr arrayPath elem cur1 (getId doc) doc _ rfl hnarr
      rw [hstep] at hpush
      have hrest : (post.filter (fun v => matches_condition v cond)).foldlM
          (pushStep getId arrayPath elem) cur1 = some db' := hpush
      have hframe_post : dbFind db' id = dbFind cur1 id :=
        foldlM_keep (pushStep getId arrayPath elem) id _ _ db'
          (fun c c' it hit hstep2 =>
            pushStep_frame getId arrayPath elem c c' it id hstep2
              (hpost it (List.mem_of_mem_filter hit)))
          hrest
      rw [hframe_post]
      exact hfind1

/-- C7 (amended): for every matched record (stored under its own extracted
identifier, identifiers duplicate-free) whose `array_path` resolves to an
array, `pull` replaces that array with exactly the elements that do NOT
match the pull condition, in their original relative order — provided the
record's top-level field names are duplicate-free and dot-free (a top-level
name containing a dot is re-split by the write-back merge and can overwrite
other locations). -/
theorem c7_pull_amended (getId : Value → String) (db db' : Db) (cond : Value)
    (arrayPath : String) (pullCond : Value) (id : String) (doc : Value)
    (xs : List Value)
    (hnodup : (db.map Prod.fst).Nodup)
    (hcontract : ∀ p ∈ db, getId p.2 = p.1)
    (hmem : (id, doc) ∈ db)
    (hmatch : matches_condition doc cond = true)
    (hpull : pull getId db cond arrayPath pullCond = some db')
    (harr : get_nested_property doc (splitDot arrayPath) = Value.arr xs)
    (hflat : flatObj doc = true) :
    ∃ newDoc, dbFind db' id = some newDoc ∧
      get_nested_property newDoc (splitDot arrayPath) =
        Value.arr (xs.filter (fun e => ! matches_condition e pullCond)) := by
  have hid : getId doc = id := hcontract (id, doc) hmem
  have hfind0 : dbFind db id = some doc :=
    dbFind_of_mem_nodup db id doc hnodup hmem
  obtain ⟨pre, post, hsplit, hpre, hpost⟩ :=
    db_snd_split getId db id doc hnodup hcontract hmem
  have hitems : find db cond =
      pre.filter (fun v => matches_condition v cond) ++
        doc :: post.filter (fun v => matches_condition v cond) := by
    unfold find
    have hfc : List.filter (fun v => matches_condition v cond) (doc :: post) =
        doc :: List.filter (fun v => matches_condition v cond) post :=
      List.filter_cons_of_pos hmatch
    rw [hsplit, List.filter_append, hfc]
  unfold pull at hpull
  rw [hitems, foldlM_append_opt] at hpull
  cases hpre_run : (pre.filter (fun v => matches_condition v cond)).foldlM
      (pullStep getId arrayPath pullCond) db with
  | none => rw [hpre_run] at hpull; exact Option.noConfusion hpull
  | some cur1 =>
    rw [hpre_run] at hpull
    simp only [Option.some_bind] at hpull
    have hframe_pre : dbFind cur1 id = dbFind db id :=
      foldlM_keep (pullStep getId arrayPath pullCond) id _ db cur1
        (fun c c' it hit hstep =>
          pullStep_frame getId arrayPath pullCond c c' it id hstep
            (hpre it (List.mem_of_mem_filter hit)))
        hpre_run
    have hfind1 : dbFind cur1 id = some doc := by rw [hframe_pre]; exact hfind0
    rw [List.foldlM_cons] at hpull
    obtain ⟨updated, hstep, hgot⟩ := pullStep_act getId arrayPath pullCond cur1
      id doc doc xs hid hfind1 hflat harr
    rw [hstep] at hpull
    have hrest : (post.filter (fun v => matches_condition v cond)).foldlM
        (pullStep getId arrayPath pullCond) (dbInsert cur1 id updated) =
          some db' := hpull
    have hframe_post : dbFind db' id = dbFind (dbInsert cur1 id updated) id :=
      foldlM_keep (pullStep getId arrayPath pullCond) id _ _ db'
        (fun c c' it hit hstep2 =>
          pullStep_frame getId arrayPath pullCond c c' it id hstep2
            (hpost it (List.mem_of_mem_filter hit)))
        hrest
    refine ⟨updated, ?_, hgot⟩
    rw [hframe_post]
    exact dbFind_insert_self id updated cur1

theorem c8_push_amended_witness :
    ∃ newDoc, dbFind [("1", wdocPushed)] "1" = some newDoc ∧
      get_nested_property newDoc (splitDot "xs") =
        Value.arr ([Value.num 1, Value.num 2] ++ [Value.num 3]) :=
  (c8_push_amended getIdField [("1", wdoc)] [("1", wdocPushed)]
    (Value.obj []) "xs" (Value.num 3) "1" wdoc (by decide)
    (by intro p hp; rw [List.mem_singleton] at hp; subst hp; rfl)
    (by simp [wdoc]) (by decide) rfl).1 [Value.num 1, Value.num 2] rfl
    (by decide)

theorem c7_pull_amended_witness :
    ∃ newDoc, dbFind [("1", wdoc2Pulled)] "1" = some newDoc ∧
      get_nested_property newDoc (splitDot "xs") =
        Value.arr ([Value.obj [("t", Value.num 1)],
          Value.obj [("t", Value.num 2)]].filter
            (fun e => ! matches_condition e (Value.obj [("t", Value.num 1)]))) :=
  c7_pull_amended getIdField [("1", wdoc2)] [("1", wdoc2Pulled)]
    (Value.obj []) "xs" (Value.obj [("t", Value.num 1)]) "1" wdoc2
    [Value.obj [("t", Value.num 1)], Value.obj [("t", Value.num 2)]]
    (by decide)
    (by intro p hp; rw [List.mem_singleton] at hp; subst hp; rfl)
    (by simp [wdoc2]) (by decide) rfl rfl (by decide)

/-- C8 (counterexample): on the record `cdoc`, whose literal field name
`"x.y"` shadows the nested path `x.y`, `push` does not leave an array one
element longer at the path: the write-back merge re-splits the literal
`"x.y"` entry and overwrites the freshly appended array with `5`. -/
theorem c8_counterexample :
    matches_condition cdoc (Value.obj []) = true ∧
      get_nested_property cdoc (splitDot "x.y") = Value.arr [Value.num 0] ∧
      push getIdField [("1", cdoc)] (Value.obj []) "x.y" (Value.num 7) =
        some [("1", cdocFinal)] ∧
      dbFind [("1", cdocFinal)] "1" = some cdocFinal ∧
      (∀ ys : List Value,
        get_nested_property cdocFinal (splitDot "x.y") ≠ Value.arr ys) := by
  refine ⟨by decide, rfl, rfl, rfl, ?_⟩
  intro ys h
  rw [show get_nested_property cdocFinal (splitDot "x.y") = Value.num 5
    from rfl] at h
  exact Value.noConfusion h

/-- C7 (counterexample): on the same shadowed record, `pull` does not
replace the array at the path with the non-matching elements: the write-back
merge overwrites it with the literal `"x.y"` entry's value `5`. -/
theorem c7_counterexample :
    matches_condition cdoc (Value.obj []) = true ∧
      get_nested_property cdoc (splitDot "x.y") = Value.arr [Value.num 0] ∧
      pull getIdField [("1", cdoc)] (Value.obj []) "x.y"
          (Value.obj [("t", Value.num 0)]) = some [("1", cdocFinal)] ∧
      dbFind [("1", cdocFinal)] "1" = some cdocFinal ∧
      get_nested_property cdocFinal (splitDot "x.y") ≠
        Value.arr ([Value.num 0].filter
          (fun e => ! matches_condition e (Value.obj [("t", Value.num 0)]))) := by
  refine ⟨by decide, rfl, rfl, rfl, ?_⟩
  intro h
  rw [show get_nested_property cdocFinal (splitDot "x.y") = Value.num 5
    from rfl] at h
  exact Value.noConfusion h
